import Mathlib

/-!
Verification of the context-forge content pipeline.

Strings are modelled as lists of characters (`Str := List Char`); a
JavaScript string and its model are related by `String.data`, so equality of
models is byte-for-byte equality of the original strings (all inputs in this
development are ASCII).  JavaScript `string.split`, `join`, `trim`, regular
expressions and `Array` operations are translated into executable Lean
functions, each mirroring the exact source expression it embeds (the source
file and lines are cited at every definition).  Timestamps (`createdTime`,
`lastEditedTime`) are modelled as integers standing for
`new Date(s).getTime()` milliseconds, which is the only way the source ever
consumes them.
-/

namespace ContextForge

abbrev Str := List Char

/-- Characters matched by JavaScript `\s` (and trimmed by `String.trim`):
ASCII whitespace plus NBSP and BOM.  The remaining Unicode space code points
never occur in this development. -/
def isJsWs (c : Char) : Bool :=
  c = ' ' || c = '\t' || c = '\n' || c = '\r' || c = '\x0b' || c = '\x0c' ||
  c = '\u00A0' || c = '\uFEFF'

/-- JavaScript `String.prototype.trim`. -/
def jsTrim (s : Str) : Str :=
  ((s.dropWhile isJsWs).reverse.dropWhile isJsWs).reverse

/-- JavaScript `string.split('\n')` (always returns at least one piece). -/
def splitLines : Str → List Str
  | [] => [[]]
  | c :: rest =>
    if c = '\n' then [] :: splitLines rest
    else
      match splitLines rest with
      | [] => [[c]]
      | l :: ls => (c :: l) :: ls

/-- JavaScript `array.join('\n')`. -/
def joinLines : List Str → Str
  | [] => []
  | [l] => l
  | l :: ls => l ++ '\n' :: joinLines ls

/-- JavaScript `array.join('\n\n')`, the separator used by
`renderPageBlocks` (part_005 line 407). -/
def joinNN : List Str → Str
  | [] => []
  | [p] => p
  | p :: ps => p ++ '\n' :: '\n' :: joinNN ps

/-- JavaScript `string.split(/\r?\n/)` as used by `formatAsBlockQuote`
(part_005 line 448). -/
def splitLinesRN : Str → List Str
  | [] => [[]]
  | '\r' :: '\n' :: rest => [] :: splitLinesRN rest
  | '\n' :: rest => [] :: splitLinesRN rest
  | c :: rest =>
    match splitLinesRN rest with
    | [] => [[c]]
    | l :: ls => (c :: l) :: ls

/-- JavaScript `string.toLowerCase()` restricted to the characters that occur
here (ASCII letters; other characters are fixed points). -/
def strLower (s : Str) : Str := s.map Char.toLower

/-- One step of `replace(/\s+/g, ' ')`: `sawWs` records whether the previous
character was whitespace (so the current run is already replaced). -/
def collapseWsGo : Bool → Str → Str
  | _, [] => []
  | sawWs, c :: rest =>
    if isJsWs c then
      if sawWs then collapseWsGo true rest else ' ' :: collapseWsGo true rest
    else c :: collapseWsGo false rest

/-- JavaScript `replace(/\s+/g, ' ')`. -/
def collapseWs (s : Str) : Str := collapseWsGo false s

/-- Title normalization `s.toLowerCase().replace(/\s+/g, ' ').trim()`
(part_007 line 15, merger.ts lines 400 and 464). -/
def normalizeTitle (s : Str) : Str := jsTrim (collapseWs (strLower s))

/-! ## Version parsing

Two distinct regular expressions are used by the source: an anchored one in
`ContentProcessor.filterLatestVersions` (part_007 line 20) and a scanning,
case-insensitive one in `MarkdownMerger.parseVersionFromTitle`
(merger.ts line 450).  Both are embedded as deterministic matchers below;
comments record how each backtracking subtlety of the regex engine is
resolved. -/

/-- Greedy parse of the digit-and-dots tail of `\d+(\.\d+)*`: `cur` is the
value of the digit run being read and `acc` the completed components in
reverse.  Stops before a `.` not followed by a digit. -/
def digitsDotsGo : Str → Nat → List Nat → List Nat × Str
  | [], cur, acc => ((cur :: acc).reverse, [])
  | c :: rest, cur, acc =>
    if c.isDigit then digitsDotsGo rest (cur * 10 + (c.toNat - '0'.toNat)) acc
    else if c = '.' then
      match rest with
      | d :: _ =>
        if d.isDigit then digitsDotsGo rest 0 (cur :: acc)
        else ((cur :: acc).reverse, c :: rest)
      | [] => ((cur :: acc).reverse, c :: rest)
    else ((cur :: acc).reverse, c :: rest)

/-- Greedy match of `(\d+(?:\.\d+)*)` at the front: the `parseInt` values
of the dot-separated components, and the rest of the string. -/
def digitsDots (s : Str) : Option (List Nat × Str) :=
  match s with
  | c :: rest =>
    if c.isDigit then some (digitsDotsGo rest (c.toNat - '0'.toNat) []) else none
  | [] => none

/-- Separator class `[\s\-–—_\(\[]` of the part_007 regex. -/
def isSep7 (c : Char) : Bool :=
  isJsWs c || c = '-' || c = '–' || c = '—' || c = '_' || c = '(' || c = '['

/-- Trailing part `\s*[\)\]]?\s*$` of the part_007 regex.  Taking the
optional bracket when present loses no matches: if the bracket is present
but the rest fails, skipping the bracket fails at the same character. -/
def tail7 (s : Str) : Bool :=
  let r1 := s.dropWhile isJsWs
  let r2 := match r1 with
    | c :: t => if c = ')' || c = ']' then t else c :: t
    | [] => []
  (r2.dropWhile isJsWs).isEmpty

/-- Attempt of the part_007 regex suffix
`(?:[\s\-–—_\(\[]*)[vV](?:ersion)?\s*(\d+(?:\.\d+)*)\s*[\)\]]?\s*$` at a
fixed split point.  The separator run is consumed greedily (no separator is
`v`/`V`, so no backtracking arises); `ersion` is taken whenever literally
present (if taking it fails, not taking it fails at the first `e` as well);
the digit groups are consumed greedily (giving a group back would leave a
`.` where only whitespace, a closing bracket or the end may follow, so
backtracking over groups can never rescue a match). -/
def suffix7 (s : Str) : Option (List Nat) :=
  match s.dropWhile isSep7 with
  | c :: r2 =>
    if c = 'v' || c = 'V' then
      let r3 := if ("ersion".data).isPrefixOf r2 then r2.drop 6 else r2
      match digitsDots (r3.dropWhile isJsWs) with
      | some (parts, rest) => if tail7 rest then some parts else none
      | none => none
    else none
  | [] => none

/-- Search for the lazy split point of `^(.*?)(?:[\s\-–—_\(\[]*)[vV]...$`:
the first position (scanning left to right, mirroring the lazy `(.*?)`)
whose suffix matches.  `acc` holds the reversed prefix. -/
def scan7 : Str → Str → Option (Str × List Nat)
  | acc, [] =>
    match suffix7 [] with
    | some v => some (acc.reverse, v)
    | none => none
  | acc, c :: rs =>
    match suffix7 (c :: rs) with
    | some v => some (acc.reverse, v)
    | none => scan7 (c :: acc) rs

/-- Strip of `replace(/[\-–—_\(:]+$/, '')` (part_007 line 24). -/
def stripEnd7 (s : Str) : Str :=
  (s.reverse.dropWhile (fun c =>
    c = '-' || c = '–' || c = '—' || c = '_' || c = '(' || c = ':')).reverse

/-- The `parseTitle` closure of `ContentProcessor.filterLatestVersions`
(part_007 lines 17-28): anchored match of
`^(.*?)(?:[\s\-–—_\(\[]*)[vV](?:ersion)?\s*(\d+(?:\.\d+)*)\s*[\)\]]?\s*$`
against the trimmed title; on success the base is
`match[1].trim().replace(/[\-–—_\(:]+$/,'').trim()`, falling back to the
whole trimmed title when that leaves nothing. -/
def parseTitle7 (title : Str) : Str × Option (List Nat) :=
  let trimmed := jsTrim title
  match scan7 [] trimmed with
  | none => (trimmed, none)
  | some (baseRaw, v) =>
    let b := jsTrim (stripEnd7 (jsTrim baseRaw))
    ((if b.isEmpty then trimmed else b), some v)

/-- JavaScript `\w` (word character) for `\b` boundaries. -/
def isWordChar (c : Char) : Bool :=
  ('a' ≤ c && c ≤ 'z') || ('A' ≤ c && c ≤ 'Z') || ('0' ≤ c && c ≤ '9') || c = '_'

/-- Case-insensitive literal prefix test (for the `/i` flag). -/
def ciIsPre (p : String) (s : Str) : Bool :=
  (p.data.map Char.toLower).isPrefixOf (s.map Char.toLower)

/-- Keyword alternatives of `(?:v(?:ersion)?|ver)` with the `/i` flag, in
the order the regex engine tries them at a fixed position: `version` (the
greedy optional), bare `v`, then `ver`.  Returns the remainders after the
keyword. -/
def kwTailsM (s : Str) : List Str :=
  match s with
  | c :: rest =>
    if c.toLower = 'v' then
      (if ciIsPre "ersion" rest then [rest.drop 6] else []) ++ [rest] ++
        (if ciIsPre "er" rest then [rest.drop 2] else [])
    else []
  | [] => []

/-- Attempt of `\s*(\d+(?:\.\d+)*)\b` after a candidate keyword (merger.ts
line 450).  The digit groups are taken greedily; when the trailing `\b`
fails on the full run the engine gives back exactly one `(\.\d+)` group,
after which the boundary falls before a `.` and always succeeds; with no
group to give back the attempt fails (shrinking `\d+` can never produce a
boundary, as the next character would be a digit). -/
def digitsBoundaryM (r : Str) : Option (List Nat) :=
  match digitsDots (r.dropWhile isJsWs) with
  | some (parts, rest) =>
    match rest with
    | [] => some parts
    | c :: _ =>
      if isWordChar c then
        if parts.length ≤ 1 then none else some parts.dropLast
      else some parts
  | none => none

/-- One attempt of the merger regex at a fixed start position: the keyword
alternatives in engine order, each followed by `\s*(\d+(?:\.\d+)*)\b`. -/
def matchAtM (s : Str) : Option (List Nat) :=
  (kwTailsM s).foldl (fun acc r => acc.or (digitsBoundaryM r)) none

/-- Scan of the `exec` loop over `/\b(?:v(?:ersion)?|ver)\s*(\d+(?:\.\d+)*)\b/ig`
(merger.ts lines 450-453), keeping the last match.  `acc` is the reversed
prefix before the current position; a match may start only at a `\b`
boundary (start of string or after a non-word character).  Matches never
overlap in a way that could hide a later match start, so keeping the last
boundary-anchored match equals the last match of the `exec` loop. -/
def lastMatchM : Str → Str → Option (Str × List Nat) → Option (Str × List Nat)
  | _, [], best => best
  | acc, c :: rs, best =>
    let boundary := match acc with
      | [] => true
      | p :: _ => !isWordChar p
    let best2 := if boundary then
        match matchAtM (c :: rs) with
        | some v => some (acc.reverse, v)
        | none => best
      else best
    lastMatchM (c :: acc) rs best2

/-- Strip of `replace(/[\-–—_:()\[\]\s]+$/, '')` (merger.ts line 456). -/
def stripEndM (s : Str) : Str :=
  (s.reverse.dropWhile (fun c =>
    c = '-' || c = '–' || c = '—' || c = '_' || c = ':' || c = '(' || c = ')' ||
    c = '[' || c = ']' || isJsWs c)).reverse

/-- `MarkdownMerger.parseVersionFromTitle` (merger.ts lines 448-460): last
match of the scanning case-insensitive regex; the base title is the prefix
before the match, trimmed and stripped, falling back to the whole trimmed
title when that leaves nothing. -/
def parseTitleM (title : Str) : Str × Option (List Nat) :=
  let trimmed := jsTrim title
  match lastMatchM [] trimmed none with
  | none => (trimmed, none)
  | some (pre, v) =>
    let b := jsTrim (stripEndM (jsTrim pre))
    ((if b.isEmpty then trimmed else b), some v)

/-- `compareVersionParts` (part_007 lines 39-47, merger.ts lines 410-418,
474-482): element-wise comparison, missing trailing components read as 0;
returned as an `Ordering` standing for the sign of the JS number. -/
def vecNonzero (l : List Nat) : Bool := l.any (fun x => 0 < x)

def cmpVec : List Nat → List Nat → Ordering
  | [], [] => .eq
  | [], bs => if vecNonzero bs then .lt else .eq
  | a :: as, [] => if 0 < a then .gt else cmpVec as []
  | a :: as, b :: bs =>
    if a < b then .lt else if b < a then .gt else cmpVec as bs

/-! ## Pages, version filtering, grouping -/

/-- `ProcessedPage` (src/types/index.ts lines 13-22) restricted to the
fields the verified functions consume (`id`, `tags` and `url` are carried
along unchanged by all of them and are omitted).  The two time fields hold
`new Date(field).getTime()` milliseconds. -/
structure PPage where
  title : Str
  category : Str
  content : Str
  createdTime : Int
  lastEditedTime : Int
deriving DecidableEq

/-- Insertion into a JavaScript `Map`-of-lists
(`groups.get(key) || []` then `push` then `set`): iteration order of a JS
`Map` is key insertion order, which an association list preserves. -/
def groupInsert {K V : Type} [DecidableEq K] :
    List (K × List V) → K → V → List (K × List V)
  | [], k, v => [(k, [v])]
  | (k2, vs) :: rest, k, v =>
    if k2 = k then (k2, vs ++ [v]) :: rest
    else (k2, vs) :: groupInsert rest k v

/-- Entry of the `Versioned` records built by `filterLatestVersions`. -/
structure VEntry where
  page : PPage
  version : Option (List Nat)
deriving DecidableEq

/-- Best-of-group fold of `filterLatestVersions` (part_007 lines 61-73):
strictly higher version wins; on an exactly equal vector the entry with the
strictly later `lastEditedTime` wins. -/
def bestEntry (w0 : VEntry) (ws : List VEntry) : VEntry :=
  ws.foldl (fun best cur =>
    match best.version, cur.version with
    | some bv, some cv =>
      match cmpVec bv cv with
      | .lt => cur
      | .eq => if best.page.lastEditedTime < cur.page.lastEditedTime then cur else best
      | .gt => best
    | _, _ => best) w0

/-- `ContentProcessor.filterLatestVersions` (part_007 lines 12-84): group
pages by normalized parsed base title (in first-seen key order); keep every
member of a group with no versioned member, otherwise keep exactly the best
versioned member. -/
def filterLatestVersions (pages : List PPage) : List PPage :=
  let groups := pages.foldl (fun gs p =>
    let pr := parseTitle7 p.title
    groupInsert gs (normalizeTitle pr.1) ⟨p, pr.2⟩) []
  (groups.map (fun g =>
    let withV := g.2.filter (fun e => e.version.isSome)
    match withV with
    | [] => g.2.map (·.page)
    | w0 :: ws => [(bestEntry w0 ws).page])).flatten

/-- A split-out subpage section (`{ title, content }`, merger.ts line 208). -/
structure Subpage where
  title : Str
  content : Str
deriving DecidableEq

/-- Best-of-group fold of `filterSubpageEntries` (merger.ts lines 489-493):
only `compareVersionParts(best.version, cur.version) < 0` replaces the
current best, so on an exactly equal vector the earlier entry is kept —
there is no tie-break of any kind here. -/
def bestIdxM (w0 : Nat × Subpage × List Nat) (ws : List (Nat × Subpage × List Nat)) :
    Nat × Subpage × List Nat :=
  ws.foldl (fun best cur =>
    match cmpVec best.2.2 cur.2.2 with
    | .lt => cur
    | _ => best) w0

/-- `MarkdownMerger.filterSubpageEntries` (merger.ts lines 462-498): group
the indexed sections by normalized parsed base title (using the merger's
scanning parser); a group with no versioned member keeps all its indices,
otherwise only the best versioned index is kept; finally the sections are
filtered by the keep set, preserving input order. -/
def filterSubpageEntries (subs : List Subpage) : List Subpage :=
  let indexed := subs.enum
  let groups := indexed.foldl (fun gs e =>
    let pr := parseTitleM e.2.title
    groupInsert gs (normalizeTitle pr.1) (e.1, e.2, pr.2)) []
  let keep := (groups.map (fun g =>
    let withV := g.2.filterMap (fun e =>
      match e.2.2 with
      | some v => some (e.1, e.2.1, v)
      | none => none)
    match withV with
    | [] => g.2.map (·.1)
    | w0 :: ws => [(bestIdxM w0 ws).1])).flatten
  (subs.enum.filter (fun p => keep.contains p.1)).map (·.2)

/-- `ContentProcessor.filterEmptyPages` (processor.ts lines 30-39, part_007
lines 109-118): keep pages whose `content.trim()` is nonempty. -/
def filterEmptyPages (pages : List PPage) : List PPage :=
  pages.filter (fun p => !(jsTrim p.content).isEmpty)

/-- `page.category || 'Uncategorized'` (processor.ts line 9). -/
def effCategory (p : PPage) : Str :=
  if p.category.isEmpty then "Uncategorized".data else p.category

/-- `CategoryGroup` (src/types/index.ts lines 24-27). -/
structure CatGroup where
  category : Str
  pages : List PPage
deriving DecidableEq

/-- Stable insertion: `stays x y` reads "x stays ahead of y", i.e. the JS
comparator on `(x, y)` is `≤ 0`.  Folding `insertStable` over a list is the
unique stable sort, which is what `Array.prototype.sort` performs. -/
def insertStable {α : Type} (stays : α → α → Bool) (a : α) : List α → List α
  | [] => [a]
  | x :: xs => if stays x a then x :: insertStable stays a xs else a :: x :: xs

/-- Stable sort by repeated insertion (model of `Array.prototype.sort`). -/
def sortStable {α : Type} (stays : α → α → Bool) (l : List α) : List α :=
  l.foldl (fun acc a => insertStable stays a acc) []

/-- `ContentProcessor.groupByCategory` of src/services/processor.ts (lines
5-28): partition by category in first-seen order, sort each group's pages
by `createdTime` descending (comparator `dateB - dateA`, so `x` stays ahead
of `y` when `y.createdTime ≤ x.createdTime`), then sort the groups by the
category comparator.  `catStays g1 g2` abstracts
`a.category.localeCompare(b.category) ≤ 0`, whose locale-dependent order no
claim depends on. -/
def groupByCategoryProc (catStays : Str → Str → Bool) (pages : List PPage) :
    List CatGroup :=
  let gs := pages.foldl (fun acc p => groupInsert acc (effCategory p) p) []
  let result := gs.map (fun g =>
    CatGroup.mk g.1 (sortStable (fun x y => y.createdTime ≤ x.createdTime) g.2))
  sortStable (fun a b => catStays a.category b.category) result

/-- `ContentProcessor.groupByCategory` of part_007 (lines 85-107): partition
by category in first-seen order, keeping each group's pages exactly as
received (the source comments "Preserve the original order from Notion"),
then sort the groups by the category comparator. -/
def groupByCategoryKeep (catStays : Str → Str → Bool) (pages : List PPage) :
    List CatGroup :=
  let gs := pages.foldl (fun acc p => groupInsert acc (effCategory p) p) []
  let result := gs.map (fun g => CatGroup.mk g.1 g.2)
  sortStable (fun a b => catStays a.category b.category) result

/-! ## Block tree rendering (`NotionService.renderPageBlocks`, part_005
lines 316-456)

A `Block` holds the fields the renderer reads: its kind, its concatenated
`rich_text` plain text (for a `child_page` block this slot holds the
title), the code language, and its children.  Fetching children by block id
with cursor pagination accumulates all children of a block into one parts
list before joining, so the embedding passes the full child list directly;
`has_children` is modelled as the child list being nonempty. -/

inductive BKind where
  | paragraph | heading1 | heading2 | heading3 | quote | callout
  | bulleted | numbered | code | divider | childPage | other
deriving DecidableEq

inductive Block where
  | node (kind : BKind) (text : Str) (lang : Str) (children : List Block)

/-- The `<!--subpage-->` marker line (part_005 line 344). -/
def markerStr : Str := "<!--subpage-->".data

/-- The fence introducer checked by `trimmed.startsWith('```')`. -/
def fenceStr : Str := "```".data

/-- `'#'.repeat(n)`. -/
def hashRun (n : Nat) : Str := List.replicate n '#'

/-- `NotionService.extractBlockText` (part_005 lines 410-444) for the
non-`child_page` kinds.  Heading kinds prefix a `#` run and a space (even
when the text is empty); `child_page` never reaches this function on the
rendering path. -/
def extractBlockText (k : BKind) (text lang : Str) : Str :=
  match k with
  | .paragraph => text
  | .quote => text
  | .callout => text
  | .heading1 => '#' :: ' ' :: text
  | .heading2 => '#' :: '#' :: ' ' :: text
  | .heading3 => '#' :: '#' :: '#' :: ' ' :: text
  | .bulleted => '-' :: ' ' :: text
  | .numbered => '1' :: '.' :: ' ' :: text
  | .code => fenceStr ++ lang ++ '\n' :: text ++ '\n' :: fenceStr
  | .divider => "---".data
  | .childPage => []
  | .other => []

/-- `NotionService.formatAsBlockQuote` (part_005 lines 446-456). -/
def formatAsBlockQuote (t : Str) : Str :=
  if (jsTrim t).isEmpty then []
  else joinLines ((splitLinesRN t).map (fun l =>
    if (jsTrim l).isEmpty then ['>'] else '>' :: ' ' :: l))

mutual

/-- The `contentParts` entries one block contributes inside
`renderPageBlocks` (part_005 lines 336-401), at heading depth `h` and child
depth `d`.  A `child_page` block contributes the marker (only at `d = 0`),
its heading line, an empty part, its recursively rendered content when
nonblank, and a trailing empty part.  Any other block contributes at most
one combined part. -/
def partsOfBlock : Block → Nat → Nat → List Str
  | .node k text lang children, h, d =>
    if k = .childPage then
      let t := if text.isEmpty then "Untitled".data else text
      let hl := hashRun (min 6 (max 1 h)) ++ ' ' :: t
      let cc := joinNN (partsOfBlocks children (min 6 (h + 1)) (d + 1))
      (if d = 0 then [markerStr] else []) ++ [hl, []] ++
        (if (jsTrim cc).isEmpty then [] else [cc]) ++ [[]]
    else
      let base := extractBlockText k text lang
      if children.isEmpty then
        if k = .quote then
          let q := formatAsBlockQuote base
          if q.isEmpty then [] else [q]
        else if base.isEmpty then [] else [base]
      else
        let ct := joinNN (partsOfBlocks children h (d + 1))
        let combined := joinNN ((if base.isEmpty then [] else [base]) ++
          (if ct.isEmpty then [] else [ct]))
        if k = .quote then
          let q := formatAsBlockQuote combined
          if q.isEmpty then [] else [q]
        else if (jsTrim combined).isEmpty then [] else [combined]

/-- Concatenation of `partsOfBlock` over a child list, in remote order. -/
def partsOfBlocks : List Block → Nat → Nat → List Str
  | [], _, _ => []
  | b :: bs, h, d => partsOfBlock b h d ++ partsOfBlocks bs h d

end

/-- `renderPageBlocks` applied to a block's children list:
`contentParts.join('\n\n')` (part_005 line 407). -/
def renderPageBlocks (bs : List Block) (h d : Nat) : Str :=
  joinNN (partsOfBlocks bs h d)

/-! ## Content splitting (`MarkdownMerger.splitPageIntoMainAndSubpages`,
merger.ts lines 208-266) -/

/-- JavaScript line terminators that the regex metacharacter `.` never
matches.  Lines handed to the heading match come from `split('\n')`, so
`'\n'` cannot actually occur in them, but `'\r'` can; the remaining
terminators U+2028 and U+2029 never occur in this development. -/
def isLineTerm (c : Char) : Bool :=
  c = '\n' || c = '\r'

/-- Heading match `/^(#{1,6})\s+(.+?)\s*$/` followed by `m[2].trim()`.
The anchored backtracking search succeeds exactly when the line is a run
of one to six `#` (a seventh `#` kills every split, since `\s+` cannot
match `#`), followed by a whitespace character, such that the remainder
`rest` admits a split `\s+ (.+?) \s*` — `(.+?)` being one or more
non-line-terminator characters.  Every non-whitespace character of `rest`
must land in the middle group, so when `rest` has one, the group must span
`jsTrim rest` and the match succeeds iff that span is terminator-free;
when `rest` is all whitespace, the lazy group matches a single whitespace
character, which must be a non-terminator at a position after the
mandatory `\s+` character.  In both cases `m[2].trim()` equals
`jsTrim rest` (empty in the all-whitespace case). -/
def matchHeadingLine (l : Str) : Option Str :=
  let hashes := l.takeWhile (· = '#')
  let rest := l.drop hashes.length
  if 1 ≤ hashes.length && hashes.length ≤ 6 then
    match rest with
    | c :: rtail =>
      if isJsWs c then
        if (jsTrim rest).isEmpty then
          if rtail.any (fun d => !isLineTerm d) then some (jsTrim rest) else none
        else
          if (jsTrim rest).all (fun d => !isLineTerm d) then some (jsTrim rest) else none
      else none
    | [] => none
  else none

/-- Mode of the splitting scan of `splitPageIntoMainAndSubpages`
(merger.ts lines 217-263).  The source walks an index `i` with in-place
lookahead (`j` skips blank lines after a marker, `k` collects a section)
and jump-continues at `i = k`; read line by line this is exactly a
three-mode machine:

* `main inCode` — the top of the `while` loop with its code-fence flag;
* `seek buffered` — a marker line was seen out of fence (line 234) and the
  following blank lines are being skipped (line 237); `buffered` holds the
  marker line and those blanks, which all go to `main` if no heading
  follows (lines 258-262 re-process them at `i+1` after pushing the
  marker);
* `collect title buf localInCode` — a heading line was found (lines
  239-253): lines accumulate into `buf` (which starts at the heading line)
  until an out-of-fence marker or end of input; the closing marker line is
  then re-processed by the outer loop (`i = k`), i.e. the machine enters
  `seek` again. -/
inductive SplitMode where
  | mainMode (inCode : Bool)
  | seekMode (buffered : List Str)
  | collectMode (title : Str) (buf : List Str) (localInCode : Bool)

/-- The scan itself; returns the `main` lines and the `(title, content)`
sections in order. -/
def splitSM : List Str → SplitMode → List Str × List (Str × Str)
  | [], .mainMode _ => ([], [])
  | [], .seekMode buffered => (buffered, [])
  | [], .collectMode title buf _ => ([], [(title, joinLines buf)])
  | l :: rest, .mainMode inCode =>
    let t := jsTrim l
    if fenceStr.isPrefixOf t then
      let p := splitSM rest (.mainMode !inCode)
      (l :: p.1, p.2)
    else if inCode then
      let p := splitSM rest (.mainMode inCode)
      (l :: p.1, p.2)
    else if t = markerStr then
      splitSM rest (.seekMode [l])
    else
      let p := splitSM rest (.mainMode inCode)
      (l :: p.1, p.2)
  | l :: rest, .seekMode buffered =>
    if (jsTrim l).isEmpty then splitSM rest (.seekMode (buffered ++ [l]))
    else
      match matchHeadingLine l with
      | some title => splitSM rest (.collectMode title [l] false)
      | none =>
        let t := jsTrim l
        if fenceStr.isPrefixOf t then
          let p := splitSM rest (.mainMode true)
          (buffered ++ l :: p.1, p.2)
        else if t = markerStr then
          let p := splitSM rest (.seekMode [l])
          (buffered ++ p.1, p.2)
        else
          let p := splitSM rest (.mainMode false)
          (buffered ++ l :: p.1, p.2)
  | l :: rest, .collectMode title buf inC =>
    let t := jsTrim l
    let inC2 := if fenceStr.isPrefixOf t then !inC else inC
    if inC2 = false ∧ t = markerStr then
      let p := splitSM rest (.seekMode [l])
      (p.1, (title, joinLines buf) :: p.2)
    else splitSM rest (.collectMode title (buf ++ [l]) inC2)

/-- `MarkdownMerger.splitPageIntoMainAndSubpages` (merger.ts lines
208-266): early return on blank input, otherwise scan `split('\n')` from
`mainMode false`. -/
def splitPage (markdown : Str) : Str × List (Str × Str) :=
  if (jsTrim markdown).isEmpty then ([], [])
  else
    let p := splitSM (splitLines markdown) (.mainMode false)
    (joinLines p.1, p.2)

/-! ## Child-page fetching (`NotionService.fetchChildPages`, part_005 lines
89-124)

The child-page hierarchy below a page is a forest of `PTree` nodes; `pid`
identifies the page and `ok` records whether `processPage` succeeds for it
(on failure the child and its entire subtree are skipped by the
`try/catch`).  Blocks that are not `child_page` are skipped by the loop and
are not represented. -/

inductive PTree where
  | node (ok : Bool) (pid : Nat) (children : List PTree)

mutual

/-- The `for` loop body of `fetchChildPages` for one block under a call at
depth `depth ≤ 10`: a successfully processed child contributes its id
followed by its recursively fetched descendants, the recursive call at
`depth + 1` returning `[]` as soon as its `depth > 10` guard fires. -/
def fetchNode : PTree → Nat → List Nat
  | .node ok pid cs, depth =>
    if ok then
      pid :: (if 10 < depth + 1 then [] else fetchForest cs (depth + 1))
    else []

def fetchForest : List PTree → Nat → List Nat
  | [], _ => []
  | t :: rest, depth => fetchNode t depth ++ fetchForest rest depth

end

/-- `fetchChildPages(parentPageId, depth)` (part_005 lines 89-124): returns
`[]` as soon as `depth > 10`, otherwise walks the children in order. -/
def fetchChildPages (ts : List PTree) (depth : Nat) : List Nat :=
  if 10 < depth then [] else fetchForest ts depth

mutual

/-- Reference tree pruning: keep only nodes fewer than `k` generations
below the roots of the forest. -/
def cutBelow : Nat → List PTree → List PTree
  | 0, _ => []
  | _ + 1, [] => []
  | k + 1, t :: rest => cutNodeAt k t :: cutBelow (k + 1) rest

def cutNodeAt : Nat → PTree → PTree
  | k, .node ok pid cs => .node ok pid (cutBelow k cs)

end

mutual

/-- Preorder traversal collecting processed ids, skipping failed nodes
together with their subtrees. -/
def preorder : List PTree → List Nat
  | [] => []
  | t :: rest => preNode t ++ preorder rest

def preNode : PTree → List Nat
  | .node ok pid cs => if ok then pid :: preorder cs else []

end

/-! ## Database pagination (`NotionService.fetchDatabasePages`, part_005
lines 126-197)

One `databases.query` call returns up to `pageSize` results together with
`has_more`/`next_cursor`; the embedding carries the remaining items list in
place of the cursor.  `hasProps` models the `'properties' in page` filter;
`process` models `processPage`, whose `null` results are dropped when
collected.  The export-flag filter is the identity here because
`isExportEnabled(props, undefined)` returns `true` (part_005 line 229), the
setting of claim C8.  `Promise.all` resolves positionally, so the
concurrently processed batch is a `filterMap` in batch order.  The second
component counts the `databases.query` calls. -/
def fetchDbLoop {Item Page : Type} (process : Item → Option Page)
    (hasProps : Item → Bool) (pageSize : Nat) (hP : 0 < pageSize)
    (items : List Item) : List Page × Nat :=
  let batch := (items.take pageSize).filter hasProps
  let processed := batch.filterMap process
  if hMore : pageSize < items.length then
    let rest := fetchDbLoop process hasProps pageSize hP (items.drop pageSize)
    (processed ++ rest.1, rest.2 + 1)
  else (processed, 1)
termination_by items.length
decreasing_by
  rw [List.length_drop]
  omega

/-! ## Retry with backoff (`retry`, src/utils/async.ts lines 12-40)

`tries i` is the outcome of the `i`-th invocation of the wrapped function;
`rand i` is the value of `Math.random()` drawn before the `i`-th retry
sleep (so `0 ≤ rand i < 1`); delays are exact rationals of milliseconds.
`remaining` is `retries - attempt`, so the source's `attempt === retries`
exit test is `remaining = 0`.  The result pairs the final outcome with the
list of slept delays. -/
def retryGo {E A : Type} (tries : Nat → Except E A) (shouldRetry : E → Bool)
    (minDelayMs maxDelayMs : ℚ) (rand : Nat → ℚ) :
    Nat → Nat → Except E A × List ℚ
  | attempt, remaining =>
    match tries attempt with
    | .ok v => (.ok v, [])
    | .error e =>
      match remaining with
      | 0 => (.error e, [])
      | r + 1 =>
        if shouldRetry e then
          let backoff := min maxDelayMs (minDelayMs * 2 ^ attempt)
          let delay := backoff + rand attempt * backoff * (1 / 5)
          let r2 := retryGo tries shouldRetry minDelayMs maxDelayMs rand (attempt + 1) r
          (r2.1, delay :: r2.2)
        else (.error e, [])

/-- `retry(fn, options)` with the default options
`retries = 4, minDelayMs = 300, maxDelayMs = 3000` and a caller-supplied
`shouldRetry` predicate. -/
def retryDefault {E A : Type} (tries : Nat → Except E A) (shouldRetry : E → Bool)
    (rand : Nat → ℚ) : Except E A × List ℚ :=
  retryGo tries shouldRetry 300 3000 rand 0 4

/-! ## Concurrency limiter (`createConcurrencyLimiter`, src/utils/async.ts
lines 42-69)

Callers are numbered; `stats` maps each caller to its status.  The three
atomic steps a caller can take on the JavaScript event loop are:

* `arrive c` — the synchronous prefix of `run`: the `activeCount`
  admission test, then either `activeCount++` and a task start, or pushing
  the caller's `resolve` onto the queue;
* `finish c` — settlement of the caller's task plus the `finally` block
  (`next()`): `activeCount--` and, when the queue is nonempty, resolving
  the head waiter, whose own continuation is only scheduled;
* `resume c` — the released waiter's continuation after its `await`:
  `activeCount++` and its task start.

Any other microtask can run between `finish` and the matching `resume`
(the resolve only enqueues the continuation), which is why `arrive` steps
may interleave there. -/

inductive CStat where
  | idle | waiting | released | running | done
deriving DecidableEq

structure LimSt where
  bound : Nat
  active : Nat
  queue : List Nat
  stats : List CStat
deriving DecidableEq

inductive LEvent where
  | arrive (c : Nat) | finish (c : Nat) | resume (c : Nat)

/-- One atomic step of the limiter; `none` when the event is not enabled in
the given state. -/
def lstep (s : LimSt) : LEvent → Option LimSt
  | .arrive c =>
    match s.stats.get? c with
    | some .idle =>
      if s.bound ≤ s.active then
        some { s with queue := s.queue ++ [c], stats := s.stats.set c .waiting }
      else
        some { s with active := s.active + 1, stats := s.stats.set c .running }
    | _ => none
  | .finish c =>
    match s.stats.get? c with
    | some .running =>
      let s1 : LimSt := { s with active := s.active - 1, stats := s.stats.set c .done }
      match s1.queue with
      | [] => some s1
      | q :: rest => some { s1 with queue := rest, stats := s1.stats.set q .released }
    | _ => none
  | .resume c =>
    match s.stats.get? c with
    | some .released =>
      some { s with active := s.active + 1, stats := s.stats.set c .running }
    | _ => none

/-- Run a schedule of steps from a state; `none` if any step is disabled. -/
def runTrace : LimSt → List LEvent → Option LimSt
  | s, [] => some s
  | s, e :: es =>
    match lstep s e with
    | some s2 => runTrace s2 es
    | none => none

/-- Number of callers whose task is currently executing. -/
def runningCount (s : LimSt) : Nat := s.stats.countP (· = .running)

/-- Fresh limiter with `bound = n` and `k` callers, none arrived. -/
def initSt (n k : Nat) : LimSt := ⟨n, 0, [], List.replicate k .idle⟩

/-! ## Statement apparatus for the render/split round trip

The splitter sees a rendered page as a list of lines.  `scanFence` runs the
splitter's fence toggle over a list of lines; `hitFree` states that no line
would be recognised as an out-of-fence `<!--subpage-->` marker during that
scan.  A part is `clean` when scanning it from outside a fence neither hits
a marker nor leaves a fence open, so concatenating clean parts with blank
separator lines keeps the splitter's state synchronised at part
boundaries. -/

/-- Fence state after scanning the lines (toggle on lines whose trimmed
form starts with a triple backtick). -/
def scanFence : Bool → List Str → Bool
  | b, [] => b
  | b, l :: ls => scanFence (if fenceStr.isPrefixOf (jsTrim l) then !b else b) ls

/-- No line of the list is an out-of-fence marker line during the scan. -/
def hitFree : Bool → List Str → Bool
  | _, [] => true
  | b, l :: ls =>
    if fenceStr.isPrefixOf (jsTrim l) then hitFree (!b) ls
    else if b then hitFree b ls
    else if jsTrim l = markerStr then false
    else hitFree b ls

/-- A rendered part whose line scan starts and ends out of fences and never
hits a marker. -/
def cleanPart (p : Str) : Bool :=
  hitFree false (splitLines p) && !scanFence false (splitLines p)

/-- A line that neither toggles the fence state nor is a marker line. -/
def lineSafe (l : Str) : Bool :=
  !(fenceStr.isPrefixOf (jsTrim l)) && !(decide (jsTrim l = markerStr))

mutual

/-- Side condition on a block tree under which the structural marker
protocol is unambiguous: no plain text line of the tree spoofs a marker or
a code fence; child-page titles stay on one line and carry no carriage
return (the heading regex of the splitter cannot match a `'\r'` inside
its title group); code languages stay on one line.  (The code text of a
code block may contain marker lines — they are protected by its fence —
but no fence-toggling lines.) -/
def cleanBlock : Block → Bool
  | .node k text lang children =>
    (if k = .childPage then (!text.contains '\n' && !text.contains '\r')
     else if k = .code then
       (splitLines text).all (fun l => !(fenceStr.isPrefixOf (jsTrim l))) &&
         !lang.contains '\n'
     else (splitLines text).all lineSafe) &&
    cleanBlocks children

def cleanBlocks : List Block → Bool
  | [] => true
  | b :: bs => cleanBlock b && cleanBlocks bs

end

/-- Collector for the marker-delimited part groups: `cur` is the current
group in reverse. -/
def groupsOfGo : List Str → List Str → List (List Str)
  | [], cur => [cur.reverse]
  | p :: ps, cur =>
    if p = markerStr then cur.reverse :: groupsOfGo ps []
    else groupsOfGo ps (p :: cur)

/-- Split a parts list at the `<!--subpage-->` marker parts: the parts
before the first marker, and one group of parts per marker. -/
def splitAtMarkers (P : List Str) : List Str × List (List Str) :=
  (P.takeWhile (fun p => decide (p ≠ markerStr)),
   match P.dropWhile (fun p => decide (p ≠ markerStr)) with
   | [] => []
   | _ :: ps => groupsOfGo ps [])

/-- Title the splitter reads off a group's leading heading part. -/
def titleOfGroup (g : List Str) : Str :=
  match g with
  | p :: _ => (matchHeadingLine p).getD []
  | [] => []

/-- The sections the splitter produces from the marker-delimited part
groups: each section's content is its group joined with blank-line
separators, plus the one empty line contributed by the separator in front
of the next marker (absent for the final group). -/
def expectedFromGroups : List (List Str) → List (Str × Str)
  | [] => []
  | [g] => [(titleOfGroup g, joinNN g)]
  | g :: gs => (titleOfGroup g, joinNN g ++ ['\n']) :: expectedFromGroups gs

/-- Trimmed effective titles of the direct child-page blocks, in order. -/
def directChildTitles (bs : List Block) : List Str :=
  bs.filterMap (fun b =>
    match b with
    | .node .childPage t _ _ => some (jsTrim (if t.isEmpty then "Untitled".data else t))
    | _ => none)

/-- Association lookup mirroring `Map.get` on the insertion-ordered group
lists (first entry with the given key). -/
def getGroup {K V : Type} [DecidableEq K] : List (K × List V) → K → Option (List V)
  | [], _ => none
  | (k2, vs) :: rest, k => if k2 = k then some vs else getGroup rest k

/-! ## C1 apparatus: parts-to-lines correspondence -/

/-- Lines contributed by a parts list when every part is preceded by the
blank separator line that `join('\n\n')` places before it. -/
def partLinesSep : List Str → List Str
  | [] => []
  | p :: ps => [] :: (splitLines p ++ partLinesSep ps)

/-- Lines of a rendered parts list: the first part's lines, then each
further part preceded by a blank separator line. -/
def partLines : List Str → List Str
  | [] => []
  | p :: ps => splitLines p ++ partLinesSep ps

/-- A part that is a single line recognised by the splitter's heading
regular expression. -/
def headingPart (p : Str) : Bool :=
  decide (splitLines p = [p]) && (matchHeadingLine p).isSome

/-- Structural invariant of a `childDepth = 0` parts list: every
`<!--subpage-->` marker part is immediately followed by a heading part,
and every other part is clean. -/
def goodParts : List Str → Bool
  | [] => true
  | p :: ps =>
    (if p = markerStr then
      (match ps with | q :: _ => headingPart q | [] => false)
     else cleanPart p) && goodParts ps

/-- Sections the splitter emits from collect mode with pending title `ti`
and collected lines `B`, over the remaining parts `ps`. -/
def collectOut (ti : Str) (B : List Str) (ps : List Str) : List (Str × Str) :=
  match ps.dropWhile (fun p => decide (p ≠ markerStr)) with
  | [] => [(ti, joinLines (B ++ partLinesSep (ps.takeWhile (fun p => decide (p ≠ markerStr)))))]
  | _ :: ps2 =>
      (ti, joinLines (B ++ partLinesSep (ps.takeWhile (fun p => decide (p ≠ markerStr))) ++ [[]]))
        :: expectedFromGroups (groupsOfGo ps2 [])


/-! # Theorems -/

theorem dropWhile_nil_iff {α : Type} (q : α → Bool) (l : List α) :
    l.dropWhile q = [] ↔ ∀ x ∈ l, q x := by
  induction l with
  | nil => simp [List.dropWhile]
  | cons a as ih =>
    by_cases ha : (q a : Bool)
    · simp [List.dropWhile, ha, ih]
    · simp [List.dropWhile, ha]

theorem mem_of_mem_dropWhile {α : Type} {q : α → Bool} {l : List α} {x : α}
    (h : x ∈ l.dropWhile q) : x ∈ l :=
  (List.dropWhile_sublist q).mem h

theorem mem_takeWhile_ws {α : Type} {q : α → Bool} {l : List α} {x : α}
    (h : x ∈ l.takeWhile q) : q x :=
  List.mem_takeWhile_imp h

/-- The trimmed string is empty exactly when every character is JS
whitespace. -/
theorem jsTrim_nil_iff (s : Str) : jsTrim s = [] ↔ ∀ c ∈ s, isJsWs c := by
  unfold jsTrim
  rw [List.reverse_eq_nil_iff, dropWhile_nil_iff]
  constructor
  · intro h c hc
    have hsplit := List.takeWhile_append_dropWhile (p := isJsWs) (l := s)
    rw [← hsplit] at hc
    rcases List.mem_append.mp hc with h1 | h1
    · exact mem_takeWhile_ws h1
    · exact h c (List.mem_reverse.mpr h1)
  · intro h c hc
    exact h c (mem_of_mem_dropWhile (List.mem_reverse.mp hc))

/-- Claim C9: `filterEmptyPages` returns exactly the input pages whose
content has at least one non-whitespace character, in input order: it is
the `List.filter` of the input by that character-level predicate (the
dropped pages are precisely the empty or all-whitespace ones). -/
theorem C9_filterEmptyPages_keeps_exactly_nonblank (pages : List PPage) :
    filterEmptyPages pages =
      pages.filter (fun p => p.content.any (fun c => !isJsWs c)) := by
  unfold filterEmptyPages
  apply List.filter_congr
  intro p _
  rw [Bool.eq_iff_iff]
  simp only [Bool.not_eq_true', List.any_eq_true]
  have hiff : ((jsTrim p.content).isEmpty = false) ↔ jsTrim p.content ≠ [] := by
    cases h : (jsTrim p.content).isEmpty <;> simp_all [List.isEmpty_iff]
  rw [hiff]
  constructor
  · intro h
    by_contra hc
    push_neg at hc
    refine h ((jsTrim_nil_iff _).mpr ?_)
    intro c hcmem
    have := hc c hcmem
    simpa using this
  · rintro ⟨c, hc, hw⟩ hEmpty
    have := (jsTrim_nil_iff _).mp hEmpty c hc
    rw [hw] at this
    simp at this

/-- Claim C4: on the candidate titles `["Plan", "Plan v2", "Plan V 3.2",
"Plan version 3.10"]`, `filterLatestVersions` keeps exactly the single page
titled "Plan version 3.10"; the parsed vectors are `[2]`, `[3,2]`, `[3,10]`
(none for "Plan") and the element-wise comparison orders
`[2] < [3,2] < [3,10]`, most-significant component first. -/
theorem C4_latest_version_pick :
    filterLatestVersions
        [⟨"Plan".data, [], "body".data, 0, 0⟩,
         ⟨"Plan v2".data, [], "body".data, 0, 0⟩,
         ⟨"Plan V 3.2".data, [], "body".data, 0, 0⟩,
         ⟨"Plan version 3.10".data, [], "body".data, 0, 0⟩] =
      [⟨"Plan version 3.10".data, [], "body".data, 0, 0⟩] ∧
    (parseTitle7 "Plan".data).2 = none ∧
    (parseTitle7 "Plan v2".data).2 = some [2] ∧
    (parseTitle7 "Plan V 3.2".data).2 = some [3, 2] ∧
    (parseTitle7 "Plan version 3.10".data).2 = some [3, 10] ∧
    cmpVec [2] [3, 2] = .lt ∧ cmpVec [3, 2] [3, 10] = .lt := by
  decide

/-- Claim C3: the concurrency bound is violated on a real schedule.  With
`bound = 1`, caller 0 running and caller 1 queued, the following JavaScript
driver realises the trace `arrive 0, arrive 1, finish 0, arrive 2,
resume 1`: while task 0's settlement is pending, an already-queued
microtask chain registers `() => limit(task2)` on a resolved promise, so
that continuation lands in the microtask queue after task 0's `finally`
(which runs `next()`: `activeCount--` and `resolve()` for caller 1) but
before caller 1's own continuation (which `resolve()` merely schedules).
Caller 2's admission test then sees `activeCount = 0` and starts, after
which caller 1's continuation runs `activeCount++` and starts as well: two
tasks execute concurrently under a bound of one. -/
theorem C3_limiter_bound_violated :
    (runTrace (initSt 1 3)
        [.arrive 0, .arrive 1, .finish 0, .arrive 2, .resume 1]).map runningCount =
      some 2 ∧
    (initSt 1 3).bound = 1 := by
  decide

/-- Claim C5 counterexample: at the subpage-section granularity the
candidate kept on an exact version-vector tie is the first one in section
order, not the one from the later-edited child — the section list carries
no `lastEditedTime` at all, and `filterSubpageEntries` only replaces its
running best on a strictly greater vector.  Here `"A v1"` and `"A v1.0"`
have equal padded vectors and the first section is kept regardless of any
edit times. -/
theorem C5_counterexample_sections_keep_first :
    filterSubpageEntries
        [⟨"A v1".data, "content from the earlier-edited child".data⟩,
         ⟨"A v1.0".data, "content from the later-edited child".data⟩] =
      [⟨"A v1".data, "content from the earlier-edited child".data⟩] ∧
    cmpVec [1] [1, 0] = .eq := by
  decide

/-- Claim C6 counterexample: the `groupByCategory` of
src/services/processor.ts reorders pages inside a group — it sorts them by
`createdTime` descending, so two same-category pages arriving in creation
order come out reversed. -/
theorem C6_counterexample_group_reorders :
    groupByCategoryProc (fun _ _ => true)
        [⟨"p1".data, "A".data, "body".data, 0, 0⟩,
         ⟨"p2".data, "A".data, "body".data, 1, 0⟩] =
      [⟨"A".data,
        [⟨"p2".data, "A".data, "body".data, 1, 0⟩,
         ⟨"p1".data, "A".data, "body".data, 0, 0⟩]⟩] := by
  decide

set_option maxRecDepth 40000 in
/-- Claim C7 counterexample: `renderPageBlocks` has no depth cap.  A chain
of 15 nested child pages renders the deepest page's heading line
(`"###### DEEP"`), while `fetchChildPages` on the same 15-deep chain stops
at depth 10: it returns 11 pages and drops the deeper ones (id 99 is the
deepest). -/
theorem C7_counterexample_render_unbounded :
    ("###### DEEP".data) ∈
      splitLines (renderPageBlocks
        ((List.range 14).foldl
          (fun acc _ => [Block.node .childPage "N".data [] acc])
          [Block.node .childPage "DEEP".data [] []]) 1 0) ∧
    (fetchChildPages
        ((List.range 14).foldl
          (fun acc _ => [PTree.node true 0 acc])
          [PTree.node true 99 []]) 0).length = 11 ∧
    99 ∉ fetchChildPages
        ((List.range 14).foldl
          (fun acc _ => [PTree.node true 0 acc])
          [PTree.node true 99 []]) 0 := by
  decide

/-- Claim C8 counterexample: on an empty collection (`M = 0`) the fetch
loop still issues one paginated query (the `while (hasMore)` loop starts
with `hasMore = true`), whereas `ceil(M/P) = 0`. -/
theorem C8_counterexample_empty_collection :
    fetchDbLoop (fun i => some i) (fun _ => true) 3 (Nat.succ_pos 2) ([] : List Nat) =
      ([], 1) := by
  simp [fetchDbLoop]

/-- Claim C10: when a title consists solely of a version token, so that
removing the matched token and its separators leaves an empty base, both
parsers fall back to the full trimmed title as base title while still
reporting the version vector; consequently "v2" and "v3" fall into
different normalized base-title groups and neither is dropped, by either
latest-version filter. -/
theorem C10_pure_version_token_titles (t u pre1 pre2 : Str) (v1 v2 : List Nat)
    (h7 : scan7 [] (jsTrim t) = some (pre1, v1))
    (hb7 : jsTrim (stripEnd7 (jsTrim pre1)) = [])
    (hM : lastMatchM [] (jsTrim u) none = some (pre2, v2))
    (hbM : jsTrim (stripEndM (jsTrim pre2)) = []) :
    parseTitle7 t = (jsTrim t, some v1) ∧
    parseTitleM u = (jsTrim u, some v2) ∧
    normalizeTitle (parseTitle7 "v2".data).1 ≠ normalizeTitle (parseTitle7 "v3".data).1 ∧
    filterLatestVersions
        [⟨"v2".data, [], "body".data, 0, 0⟩, ⟨"v3".data, [], "body".data, 0, 0⟩] =
      [⟨"v2".data, [], "body".data, 0, 0⟩, ⟨"v3".data, [], "body".data, 0, 0⟩] ∧
    filterSubpageEntries [⟨"v2".data, "c2".data⟩, ⟨"v3".data, "c3".data⟩] =
      [⟨"v2".data, "c2".data⟩, ⟨"v3".data, "c3".data⟩] := by
  refine ⟨?_, ?_, by decide, by decide, by decide⟩
  · simp only [parseTitle7]
    rw [h7]
    simp [hb7]
  · simp only [parseTitleM]
    rw [hM]
    simp [hbM]

/-- Witness for C10 at the title "v2" (for the anchored parser) and "v3"
(for the scanning parser). -/
theorem C10_witness :
    parseTitle7 "v2".data = (jsTrim "v2".data, some [2]) ∧
    parseTitleM "v3".data = (jsTrim "v3".data, some [3]) :=
  ⟨(C10_pure_version_token_titles "v2".data "v3".data [] [] [2] [3]
      (by decide) (by decide) (by decide) (by decide)).1,
   (C10_pure_version_token_titles "v2".data "v3".data [] [] [2] [3]
      (by decide) (by decide) (by decide) (by decide)).2.1⟩

/-- Claim C5 as amended: the later-`lastEditedTime` tie-break exists only
at the flat page-list granularity (`ContentProcessor.filterLatestVersions`);
for two same-group pages with exactly equal version vectors the
later-edited page is kept.  At the subpage-section granularity
(`MarkdownMerger.filterSubpageEntries`) sections carry no edit time and on
an exactly equal vector the earlier section is kept. -/
theorem C5_tiebreak_page_level_only (p1 p2 : PPage) (s1 s2 : Subpage)
    (v1 v2 w1 w2 : List Nat)
    (hk : normalizeTitle (parseTitle7 p2.title).1 = normalizeTitle (parseTitle7 p1.title).1)
    (hv1 : (parseTitle7 p1.title).2 = some v1)
    (hv2 : (parseTitle7 p2.title).2 = some v2)
    (heq : cmpVec v1 v2 = .eq)
    (ht : p1.lastEditedTime < p2.lastEditedTime)
    (hks : normalizeTitle (parseTitleM s2.title).1 = normalizeTitle (parseTitleM s1.title).1)
    (hw1 : (parseTitleM s1.title).2 = some w1)
    (hw2 : (parseTitleM s2.title).2 = some w2)
    (heqs : cmpVec w1 w2 = .eq) :
    filterLatestVersions [p1, p2] = [p2] ∧
    filterSubpageEntries [s1, s2] = [s1] := by
  constructor
  · simp only [filterLatestVersions, List.foldl, groupInsert, hk, if_pos]
    simp only [List.map, List.filter, hv1, hv2, Option.isSome_some, bestEntry,
      List.foldl, heq, List.flatten]
    simp [ht]
  · simp only [filterSubpageEntries, List.enum, List.foldl, groupInsert, hks, if_pos]
    simp only [List.map, List.filterMap, hw1, hw2, bestIdxM, List.foldl, heqs, List.flatten]

/-- Witness for C5 at concrete pages "A v1" (edited at 0) and "A v1.0"
(edited at 5) and the matching concrete sections. -/
theorem C5_tiebreak_witness :
    filterLatestVersions
        [⟨"A v1".data, [], "b".data, 0, 0⟩, ⟨"A v1.0".data, [], "b".data, 0, 5⟩] =
      [⟨"A v1.0".data, [], "b".data, 0, 5⟩] ∧
    filterSubpageEntries [⟨"A v1".data, "c1".data⟩, ⟨"A v1.0".data, "c2".data⟩] =
      [⟨"A v1".data, "c1".data⟩] :=
  C5_tiebreak_page_level_only
    ⟨"A v1".data, [], "b".data, 0, 0⟩ ⟨"A v1.0".data, [], "b".data, 0, 5⟩
    ⟨"A v1".data, "c1".data⟩ ⟨"A v1.0".data, "c2".data⟩
    [1] [1, 0] [1] [1, 0]
    (by decide) (by decide) (by decide) (by decide) (by decide)
    (by decide) (by decide) (by decide) (by decide)

theorem getGroup_groupInsert {K V : Type} [DecidableEq K]
    (acc : List (K × List V)) (k k' : K) (v : V) :
    getGroup (groupInsert acc k v) k' =
      if k' = k then some ((getGroup acc k).getD [] ++ [v]) else getGroup acc k' := by
  induction acc with
  | nil =>
    by_cases h : k' = k
    · subst h; simp [groupInsert, getGroup]
    · have h2 : ¬(k = k') := fun hh => h hh.symm
      simp [groupInsert, getGroup, h, h2]
  | cons kv rest ih =>
    obtain ⟨k2, vs⟩ := kv
    by_cases h2 : k2 = k
    · subst h2
      by_cases h' : k' = k2
      · subst h'; simp [groupInsert, getGroup]
      · have h'' : ¬(k2 = k') := fun hh => h' hh.symm
        simp [groupInsert, getGroup, h', h'']
    · by_cases h' : k2 = k'
      · subst h'
        have hne : ¬(k2 = k) := h2
        simp [groupInsert, getGroup, hne, fun hh : k2 = k => h2 hh]
      · simp [groupInsert, getGroup, h2, h', ih]

theorem mem_keys_groupInsert {K V : Type} [DecidableEq K]
    (acc : List (K × List V)) (k k' : K) (v : V) :
    k' ∈ (groupInsert acc k v).map Prod.fst ↔ k' ∈ acc.map Prod.fst ∨ k' = k := by
  induction acc with
  | nil => simp [groupInsert]
  | cons kv rest ih =>
    obtain ⟨k2, vs⟩ := kv
    by_cases h2 : k2 = k
    · subst h2
      simp [groupInsert, or_comm, or_assoc]
    · simp [groupInsert, h2, ih]
      tauto

theorem nodup_keys_groupInsert {K V : Type} [DecidableEq K]
    (acc : List (K × List V)) (k : K) (v : V)
    (h : (acc.map Prod.fst).Nodup) :
    ((groupInsert acc k v).map Prod.fst).Nodup := by
  induction acc with
  | nil => simp [groupInsert]
  | cons kv rest ih =>
    obtain ⟨k2, vs⟩ := kv
    simp only [List.map_cons, List.nodup_cons] at h
    by_cases h2 : k2 = k
    · subst h2
      have hmap : (groupInsert ((k2, vs) :: rest) k2 v).map Prod.fst =
          k2 :: rest.map Prod.fst := by
        simp [groupInsert]
      rw [hmap]
      exact List.nodup_cons.mpr h
    · simp only [groupInsert, if_neg h2, List.map_cons, List.nodup_cons]
      refine ⟨?_, ih h.2⟩
      intro hmem
      rcases (mem_keys_groupInsert rest k k2 v).mp hmem with hin | hk
      · exact h.1 hin
      · exact h2 hk

theorem getGroup_eq_some_of_mem {K V : Type} [DecidableEq K]
    {acc : List (K × List V)} {kv : K × List V}
    (h : (acc.map Prod.fst).Nodup) (hm : kv ∈ acc) :
    getGroup acc kv.1 = some kv.2 := by
  induction acc with
  | nil => simp at hm
  | cons hd rest ih =>
    obtain ⟨k2, vs⟩ := hd
    simp only [List.map_cons, List.nodup_cons] at h
    rcases List.mem_cons.mp hm with he | hm2
    · subst he
      simp [getGroup]
    · have hk : kv.1 ∈ rest.map Prod.fst := List.mem_map.mpr ⟨kv, hm2, rfl⟩
      have hne : ¬(k2 = kv.1) := fun he => h.1 (he ▸ hk)
      simp only [getGroup, if_neg hne]
      exact ih h.2 hm2

theorem mem_of_getGroup_some {K V : Type} [DecidableEq K]
    {acc : List (K × List V)} {k : K} {vs : List V}
    (h : getGroup acc k = some vs) : (k, vs) ∈ acc := by
  induction acc with
  | nil => simp [getGroup] at h
  | cons hd rest ih =>
    obtain ⟨k2, vs2⟩ := hd
    by_cases h2 : k2 = k
    · subst h2
      simp [getGroup] at h
      rw [← h]
      exact List.mem_cons_self _ _
    · simp only [getGroup, if_neg h2] at h
      exact List.mem_cons_of_mem _ (ih h)

theorem nodup_keys_fold (pages : List PPage) :
    ∀ (acc : List (Str × List PPage)), (acc.map Prod.fst).Nodup →
      ((pages.foldl (fun a p => groupInsert a (effCategory p) p) acc).map Prod.fst).Nodup := by
  induction pages with
  | nil => intro acc h; simpa using h
  | cons p rest ih =>
    intro acc h
    simp only [List.foldl_cons]
    exact ih _ (nodup_keys_groupInsert acc (effCategory p) p h)

theorem fold_groups_getD (pages : List PPage) :
    ∀ (acc : List (Str × List PPage)) (k : Str),
      (getGroup (pages.foldl (fun a p => groupInsert a (effCategory p) p) acc) k).getD []
        = (getGroup acc k).getD [] ++
            pages.filter (fun q => decide (effCategory q = k)) := by
  induction pages with
  | nil => intro acc k; simp
  | cons p rest ih =>
    intro acc k
    simp only [List.foldl_cons, List.filter_cons]
    rw [ih (groupInsert acc (effCategory p) p) k, getGroup_groupInsert]
    by_cases h : k = effCategory p
    · have h2 : decide (effCategory p = k) = true := by simp [h]
      simp [h, h2]
    · have h2 : decide (effCategory p = k) = false := by
        simp
        exact fun hh => h hh.symm
      simp [h, h2]

theorem mem_insertStable {α : Type} (stays : α → α → Bool) (a x : α) (l : List α) :
    x ∈ insertStable stays a l ↔ x = a ∨ x ∈ l := by
  induction l with
  | nil => simp [insertStable]
  | cons b bs ih =>
    by_cases h : (stays b a : Bool)
    · simp only [insertStable, h, if_true, List.mem_cons, ih]
      tauto
    · simp only [insertStable, h, Bool.false_eq_true, if_false, List.mem_cons]

theorem mem_sortStable {α : Type} (stays : α → α → Bool) (x : α) (l : List α) :
    x ∈ sortStable stays l ↔ x ∈ l := by
  have key : ∀ (l acc : List α), x ∈ l.foldl (fun acc a => insertStable stays a acc) acc
      ↔ x ∈ acc ∨ x ∈ l := by
    intro l
    induction l with
    | nil => intro acc; simp
    | cons b bs ih =>
      intro acc
      simp only [List.foldl_cons]
      rw [ih]
      rw [mem_insertStable]
      simp [List.mem_cons]
      tauto
  unfold sortStable
  rw [key]
  simp

/-- Claim C6 as amended: both `groupByCategory` variants partition their
input by category (with default "Uncategorized"), and every page lands in a
group of its category.  The part_007 variant keeps each group's pages in
exactly the input order — the group is the plain `List.filter` of the
input; the src/services/processor.ts variant instead sorts each group by
`createdTime` descending (stable), so it does reorder inside groups. -/
theorem C6_grouping_orders (catStays : Str → Str → Bool) (pages : List PPage) :
    (∀ g ∈ groupByCategoryKeep catStays pages,
      g.pages = pages.filter (fun p => decide (effCategory p = g.category))) ∧
    (∀ g ∈ groupByCategoryProc catStays pages,
      g.pages = sortStable (fun x y => y.createdTime ≤ x.createdTime)
        (pages.filter (fun p => decide (effCategory p = g.category)))) ∧
    (∀ p ∈ pages, ∃ g ∈ groupByCategoryKeep catStays pages,
      g.category = effCategory p) := by
  have hnodup :
      (((pages.foldl (fun a p => groupInsert a (effCategory p) p) [])).map Prod.fst).Nodup :=
    nodup_keys_fold pages [] (by simp)
  have hgetD : ∀ k,
      (getGroup (pages.foldl (fun a p => groupInsert a (effCategory p) p) []) k).getD []
        = pages.filter (fun q => decide (effCategory q = k)) := by
    intro k
    rw [fold_groups_getD pages [] k]
    simp [getGroup]
  refine ⟨?_, ?_, ?_⟩
  · intro g hg
    unfold groupByCategoryKeep at hg
    rw [mem_sortStable] at hg
    rcases List.mem_map.mp hg with ⟨kv, hkv, hEq⟩
    have hsome := getGroup_eq_some_of_mem hnodup hkv
    have := hgetD kv.1
    rw [hsome] at this
    simp only [Option.getD_some] at this
    rw [← hEq]
    simpa using this
  · intro g hg
    unfold groupByCategoryProc at hg
    rw [mem_sortStable] at hg
    rcases List.mem_map.mp hg with ⟨kv, hkv, hEq⟩
    have hsome := getGroup_eq_some_of_mem hnodup hkv
    have := hgetD kv.1
    rw [hsome] at this
    simp only [Option.getD_some] at this
    rw [← hEq]
    simp
    rw [this]
  · intro p hp
    have hne : pages.filter (fun q => decide (effCategory q = effCategory p)) ≠ [] := by
      intro hnil
      have : p ∈ pages.filter (fun q => decide (effCategory q = effCategory p)) := by
        rw [List.mem_filter]
        exact ⟨hp, by simp⟩
      simp [hnil] at this
    have hgd := hgetD (effCategory p)
    cases hsome : getGroup (pages.foldl (fun a p => groupInsert a (effCategory p) p) [])
        (effCategory p) with
    | none =>
      rw [hsome] at hgd
      simp only [Option.getD_none] at hgd
      exact absurd hgd.symm hne
    | some vs =>
      refine ⟨⟨effCategory p, vs⟩, ?_, rfl⟩
      unfold groupByCategoryKeep
      rw [mem_sortStable]
      exact List.mem_map.mpr ⟨(effCategory p, vs), mem_of_getGroup_some hsome, rfl⟩

/-- Witness for C6 at three concrete pages (two in category "A", one with
an empty category defaulting to "Uncategorized"). -/
theorem C6_grouping_witness :
    (CatGroup.mk "A".data
        [⟨"p1".data, "A".data, "b".data, 0, 0⟩, ⟨"p2".data, "A".data, "b".data, 1, 0⟩]).pages =
      [⟨"p1".data, "A".data, "b".data, 0, 0⟩, ⟨"p2".data, "A".data, "b".data, 1, 0⟩,
        ⟨"p3".data, [], "b".data, 5, 0⟩].filter
        (fun p => decide (effCategory p =
          (CatGroup.mk "A".data
            [⟨"p1".data, "A".data, "b".data, 0, 0⟩,
             ⟨"p2".data, "A".data, "b".data, 1, 0⟩]).category)) :=
  (C6_grouping_orders (fun _ _ => true)
      [⟨"p1".data, "A".data, "b".data, 0, 0⟩, ⟨"p2".data, "A".data, "b".data, 1, 0⟩,
       ⟨"p3".data, [], "b".data, 5, 0⟩]).1
    _ (by decide)

/-- Behaviour of the retry loop for arbitrary start attempt and remaining
budget: at most `remaining` delays are slept; the `i`-th delay is
`min(cap, base * 2^attempt)` plus the drawn jitter; a final error is the
error of the last attempt made, which was either non-retryable or the
attempt of an exhausted budget; a final success is the value of the last
attempt, all earlier attempts having failed retryably. -/
theorem retryGo_spec {E A : Type} (tries : Nat → Except E A) (sR : E → Bool)
    (minD maxD : ℚ) (rand : Nat → ℚ) :
    ∀ (n a : Nat),
      (retryGo tries sR minD maxD rand a n).2.length ≤ n ∧
      (∀ i (h : i < (retryGo tries sR minD maxD rand a n).2.length),
        (retryGo tries sR minD maxD rand a n).2.get ⟨i, h⟩ =
          min maxD (minD * 2 ^ (a + i)) +
            rand (a + i) * (min maxD (minD * 2 ^ (a + i))) * (1 / 5)) ∧
      (∀ e, (retryGo tries sR minD maxD rand a n).1 = .error e →
        tries (a + (retryGo tries sR minD maxD rand a n).2.length) = .error e ∧
          (sR e = false ∨ (retryGo tries sR minD maxD rand a n).2.length = n)) ∧
      (∀ v, (retryGo tries sR minD maxD rand a n).1 = .ok v →
        tries (a + (retryGo tries sR minD maxD rand a n).2.length) = .ok v ∧
        ∀ j, j < (retryGo tries sR minD maxD rand a n).2.length →
          ∃ e, tries (a + j) = .error e ∧ sR e = true) := by
  intro n
  induction n with
  | zero =>
    intro a
    cases htry : tries a with
    | ok v =>
      have hunf : retryGo tries sR minD maxD rand a 0 = (.ok v, []) := by
        rw [retryGo, htry]
      rw [hunf]
      refine ⟨by simp, by simp, by simp, ?_⟩
      intro w hw
      simp only at hw
      refine ⟨by simpa [← hw] using htry, by simp⟩
    | error e =>
      have hunf : retryGo tries sR minD maxD rand a 0 = (.error e, []) := by
        rw [retryGo, htry]
      rw [hunf]
      refine ⟨by simp, by simp, ?_, by simp⟩
      intro e2 he2
      simp only at he2
      exact ⟨by simpa [← he2] using htry, Or.inr rfl⟩
  | succ r ih =>
    intro a
    cases htry : tries a with
    | ok v =>
      have hunf : retryGo tries sR minD maxD rand a (r + 1) = (.ok v, []) := by
        rw [retryGo, htry]
      rw [hunf]
      refine ⟨by simp, by simp, by simp, ?_⟩
      intro w hw
      simp only at hw
      refine ⟨by simpa [← hw] using htry, by simp⟩
    | error e =>
      by_cases hsr : (sR e : Bool)
      · have ihs := ih (a + 1)
        have hunf : retryGo tries sR minD maxD rand a (r + 1) =
            ((retryGo tries sR minD maxD rand (a + 1) r).1,
             (min maxD (minD * 2 ^ a) +
               rand a * (min maxD (minD * 2 ^ a)) * (1 / 5)) ::
               (retryGo tries sR minD maxD rand (a + 1) r).2) := by
          rw [retryGo, htry]
          simp [hsr]
        rw [hunf]
        refine ⟨?_, ?_, ?_, ?_⟩
        · simp only [List.length_cons]
          have := ihs.1
          omega
        · intro i h
          match i with
          | 0 => simp
          | Nat.succ i2 =>
            simp only [List.length_cons] at h
            have h2 : i2 < (retryGo tries sR minD maxD rand (a + 1) r).2.length := by
              omega
            have hg := ihs.2.1 i2 h2
            simp only [List.get_cons_succ]
            rw [hg]
            have harith : a + 1 + i2 = a + (i2 + 1) := by omega
            rw [harith]
        · intro e2 he2
          simp only at he2
          have := ihs.2.2.1 e2 he2
          simp only [List.length_cons]
          refine ⟨?_, ?_⟩
          · have heq : a + 1 + (retryGo tries sR minD maxD rand (a + 1) r).2.length =
                a + ((retryGo tries sR minD maxD rand (a + 1) r).2.length + 1) := by
              omega
            rw [← heq]
            exact this.1
          · rcases this.2 with hf | hl
            · exact Or.inl hf
            · exact Or.inr (by omega)
        · intro w hw
          simp only at hw
          have := ihs.2.2.2 w hw
          simp only [List.length_cons]
          refine ⟨?_, ?_⟩
          · have heq : a + 1 + (retryGo tries sR minD maxD rand (a + 1) r).2.length =
                a + ((retryGo tries sR minD maxD rand (a + 1) r).2.length + 1) := by
              omega
            rw [← heq]
            exact this.1
          · intro j hj
            match j with
            | 0 => exact ⟨e, by simpa using htry, hsr⟩
            | Nat.succ j2 =>
              have hj2 : j2 < (retryGo tries sR minD maxD rand (a + 1) r).2.length := by
                omega
              rcases this.2 j2 hj2 with ⟨e2, he2, hsr2⟩
              refine ⟨e2, ?_, hsr2⟩
              rw [show a + (j2 + 1) = a + 1 + j2 by omega]
              exact he2
      · have hunf : retryGo tries sR minD maxD rand a (r + 1) = (.error e, []) := by
          rw [retryGo, htry]
          simp [hsr]
        rw [hunf]
        refine ⟨by simp, by simp, ?_, by simp⟩
        intro e2 he2
        have he3 : e = e2 := by simpa using he2
        subst he3
        exact ⟨by simpa using htry, Or.inl (by simpa using hsr)⟩

/-- Claim C2: with default options `retry` sleeps at most 4 delays (hence
at most 5 total tries); the `i`-th delay is exactly
`min(3000, 300 * 2^i) + jitter` where, for `0 ≤ rand i < 1`, the jitter
lies in `[0, 20%)` of the capped backoff; a failure outcome is the
unchanged error of the final attempt, which was either non-retryable or
the 5th try; a success outcome is the unchanged value of the succeeding
try, every earlier try having failed with a retryable error. -/
theorem C2_retry_default {E A : Type} (tries : Nat → Except E A) (sR : E → Bool)
    (rand : Nat → ℚ) (hr : ∀ i, 0 ≤ rand i ∧ rand i < 1) :
    (retryDefault tries sR rand).2.length ≤ 4 ∧
    (∀ i (h : i < (retryDefault tries sR rand).2.length),
      (retryDefault tries sR rand).2.get ⟨i, h⟩ =
          min 3000 (300 * 2 ^ i) + rand i * (min 3000 (300 * 2 ^ i)) * (1 / 5) ∧
      min 3000 (300 * 2 ^ i) ≤ (retryDefault tries sR rand).2.get ⟨i, h⟩ ∧
      (retryDefault tries sR rand).2.get ⟨i, h⟩ < (min 3000 (300 * 2 ^ i)) * (6 / 5)) ∧
    (∀ e, (retryDefault tries sR rand).1 = .error e →
      tries (retryDefault tries sR rand).2.length = .error e ∧
        (sR e = false ∨ (retryDefault tries sR rand).2.length = 4)) ∧
    (∀ v, (retryDefault tries sR rand).1 = .ok v →
      tries (retryDefault tries sR rand).2.length = .ok v ∧
      ∀ j, j < (retryDefault tries sR rand).2.length →
        ∃ e, tries j = .error e ∧ sR e = true) := by
  unfold retryDefault
  have hs := retryGo_spec tries sR 300 3000 rand 4 0
  simp only [Nat.zero_add] at hs
  refine ⟨hs.1, ?_, hs.2.2.1, hs.2.2.2⟩
  intro i h
  have hget := hs.2.1 i h
  have hB : (0 : ℚ) < min 3000 (300 * 2 ^ i) := by
    apply lt_min
    · norm_num
    · positivity
  have hri := hr i
  refine ⟨hget, ?_, ?_⟩
  · rw [hget]
    nlinarith [hri.1, hB]
  · rw [hget]
    nlinarith [hri.2, hB]

/-- Witness for C2: a call failing with 429 then 503 (both retryable) and
then succeeding returns after exactly 2 retries, and the succeeding try's
value is the one returned. -/
theorem C2_witness :
    (retryDefault
        (fun n => if n = 0 then (Except.error 429 : Except Nat Nat)
          else if n = 1 then Except.error 503 else Except.ok 42)
        (fun e => decide (e = 429 ∨ 500 ≤ e)) (fun _ => 1 / 2)).2.length = 2 ∧
    (fun n => if n = 0 then (Except.error 429 : Except Nat Nat)
        else if n = 1 then Except.error 503 else Except.ok 42)
      ((retryDefault
        (fun n => if n = 0 then (Except.error 429 : Except Nat Nat)
          else if n = 1 then Except.error 503 else Except.ok 42)
        (fun e => decide (e = 429 ∨ 500 ≤ e)) (fun _ => 1 / 2)).2.length) = Except.ok 42 :=
  ⟨by decide,
   ((C2_retry_default
      (fun n => if n = 0 then (Except.error 429 : Except Nat Nat)
        else if n = 1 then Except.error 503 else Except.ok 42)
      (fun e => decide (e = 429 ∨ 500 ≤ e)) (fun _ => 1 / 2)
      (fun i => by norm_num)).2.2.2 42 (by rfl)).1⟩

theorem filterMap_length_all_some {α β : Type} (f : α → Option β) :
    ∀ (l : List α), (∀ i ∈ l, (f i).isSome) → (l.filterMap f).length = l.length := by
  intro l
  induction l with
  | nil => simp
  | cons a as ih =>
    intro h
    have ha := h a (List.mem_cons_self _ _)
    cases hfa : f a with
    | none => rw [hfa] at ha; simp at ha
    | some b =>
      rw [List.filterMap_cons, hfa]
      simp only [List.length_cons]
      rw [ih (fun i hi => h i (List.mem_cons_of_mem _ hi))]

/-- Claim C8 as amended: with every item carrying properties, no export
flag set and no per-item failure, one pagination pass returns exactly the
per-item results in input order across batches (a single `filterMap` of
the item list, hence no duplicates, no gaps, and `M` pages when every item
processes), after exactly `max(1, ceil(M/P))` paginated queries — which is
`ceil(M/P)` for `M ≥ 1`, while an empty collection still costs one query. -/
theorem C8_pagination {Item Page : Type} (process : Item → Option Page)
    (hasProps : Item → Bool) (P : Nat) (hP : 0 < P) (items : List Item)
    (hprops : ∀ i ∈ items, hasProps i = true) :
    (fetchDbLoop process hasProps P hP items).1 = items.filterMap process ∧
    (fetchDbLoop process hasProps P hP items).2 = max 1 ((items.length + P - 1) / P) ∧
    ((∀ i ∈ items, (process i).isSome) →
      (fetchDbLoop process hasProps P hP items).1.length = items.length) := by
  have main : ∀ (n : Nat) (l : List Item), l.length ≤ n →
      (∀ i ∈ l, hasProps i = true) →
      (fetchDbLoop process hasProps P hP l).1 = l.filterMap process ∧
      (fetchDbLoop process hasProps P hP l).2 = max 1 ((l.length + P - 1) / P) := by
    intro n
    induction n with
    | zero =>
      intro l hlen _
      have hnil : l = [] := List.length_eq_zero.mp (Nat.le_zero.mp hlen)
      subst hnil
      rw [fetchDbLoop]
      rw [dif_neg (by simp : ¬ P < ([] : List Item).length)]
      constructor
      · simp
      · simp only [List.length_nil, Nat.zero_add]
        rw [Nat.div_eq_of_lt (by omega)]
        simp
    | succ m ih =>
      intro l hlen hpp
      rw [fetchDbLoop]
      by_cases h : P < l.length
      · rw [dif_pos h]
        have hdroplen : (l.drop P).length ≤ m := by
          rw [List.length_drop]
          omega
        have hdropprops : ∀ i ∈ l.drop P, hasProps i = true := by
          intro i hi
          exact hpp i ((List.drop_sublist P l).mem hi)
        have ihd := ih (l.drop P) hdroplen hdropprops
        have htake : (l.take P).filter hasProps = l.take P := by
          apply List.filter_eq_self.mpr
          intro i hi
          exact hpp i ((List.take_sublist P l).mem hi)
        constructor
        · simp only [htake, ihd.1]
          rw [← List.filterMap_append, List.take_append_drop]
        · simp only [ihd.2, List.length_drop]
          have hnum : l.length + P - 1 = (l.length - P + P - 1) + P := by omega
          have hq : (l.length + P - 1) / P = (l.length - P + P - 1) / P + 1 := by
            rw [hnum, Nat.add_div_right _ hP]
          have hq1 : 1 ≤ (l.length - P + P - 1) / P := by
            rw [Nat.one_le_div_iff hP]
            omega
          rw [hq]
          rw [Nat.max_eq_right (by omega), Nat.max_eq_right (by omega)]
      · rw [dif_neg h]
        have hle : l.length ≤ P := by omega
        have htake : l.take P = l := List.take_of_length_le hle
        have hfilter : l.filter hasProps = l := List.filter_eq_self.mpr hpp
        constructor
        · rw [htake, hfilter]
        · have hq2 : (l.length + P - 1) / P < 2 := by
            rw [Nat.div_lt_iff_lt_mul hP]
            omega
          rw [Nat.max_eq_left (by omega)]
  obtain ⟨h1, h2⟩ := main items.length items (le_refl _) hprops
  refine ⟨h1, h2, ?_⟩
  intro hsome
  rw [h1]
  exact filterMap_length_all_some process items hsome

/-- Witness for C8: five items fetched at page size 2 come back complete
and in order after exactly 3 = ceil(5/2) queries. -/
theorem C8_pagination_witness :
    (fetchDbLoop some (fun _ => true) 2 (Nat.succ_pos 1) [10, 20, 30, 40, 50]).1 =
      ([10, 20, 30, 40, 50] : List Nat).filterMap some ∧
    (fetchDbLoop some (fun _ => true) 2 (Nat.succ_pos 1) [10, 20, 30, 40, 50]).2 =
      max 1 ((([10, 20, 30, 40, 50] : List Nat).length + 2 - 1) / 2) :=
  ⟨(C8_pagination some (fun _ => true) 2 (Nat.succ_pos 1) [10, 20, 30, 40, 50]
      (by simp)).1,
   (C8_pagination some (fun _ => true) 2 (Nat.succ_pos 1) [10, 20, 30, 40, 50]
      (by simp)).2.1⟩

theorem fetchForest_eq_cut : ∀ (ts : List PTree) (d : Nat), d ≤ 10 →
    fetchForest ts d = preorder (cutBelow (11 - d) ts)
  | [], d, hd => by
    have h11 : 11 - d = (10 - d) + 1 := by omega
    rw [h11]
    simp [fetchForest, cutBelow, preorder]
  | .node ok pid cs :: rest, d, hd => by
    have h11 : 11 - d = (10 - d) + 1 := by omega
    have hrest := fetchForest_eq_cut rest d hd
    rw [h11]
    simp only [fetchForest, fetchNode, cutBelow, cutNodeAt, preorder, preNode]
    rw [← h11, hrest]
    by_cases hok : ok
    · simp only [hok, if_true]
      by_cases hdeep : d = 10
      · subst hdeep
        rw [if_pos (by omega)]
        simp [cutBelow, preorder]
      · have hlt : ¬ (10 < d + 1) := by omega
        rw [if_neg hlt]
        have hcs := fetchForest_eq_cut cs (d + 1) (by omega)
        rw [hcs]
        have : 11 - (d + 1) = 10 - d := by omega
        rw [this]
    · simp [hok]
termination_by ts _ _ => sizeOf ts
decreasing_by
  all_goals simp_wf
  all_goals omega

/-- Claim C7 as amended: the explicit depth cap belongs to
`fetchChildPages` alone — a call at depth 11 returns `[]` without failing,
and the overall fetch from depth 0 is exactly the preorder traversal of
the child-page forest pruned to 11 generations — while `renderPageBlocks`
(see the counterexample) performs no depth-capped truncation. -/
theorem C7_fetch_depth_cap (ts : List PTree) :
    fetchChildPages ts 11 = [] ∧
    fetchChildPages ts 0 = preorder (cutBelow 11 ts) := by
  constructor
  · simp [fetchChildPages]
  · rw [fetchChildPages, if_neg (by omega)]
    simpa using fetchForest_eq_cut ts 0 (by omega)

/-! ### Line algebra -/

theorem splitLines_ne_nil (s : Str) : splitLines s ≠ [] := by
  induction s with
  | nil => simp [splitLines]
  | cons c rest ih =>
    rw [splitLines]
    by_cases hc : c = '\n'
    · simp [hc]
    · simp only [if_neg hc]
      cases h : splitLines rest with
      | nil => simp
      | cons l ls => simp

theorem splitLines_append (x y : Str) :
    splitLines (x ++ '\n' :: y) = splitLines x ++ splitLines y := by
  induction x with
  | nil => simp [splitLines]
  | cons c rest ih =>
    by_cases hc : c = '\n'
    · subst hc
      simp [splitLines, ih]
    · cases h : splitLines rest with
      | nil => exact absurd h (splitLines_ne_nil rest)
      | cons l ls =>
        simp only [List.cons_append, splitLines, if_neg hc, List.append_eq, ih, h]

theorem splitLines_no_nl (s : Str) (h : ∀ c ∈ s, ¬ c = '\n') :
    splitLines s = [s] := by
  induction s with
  | nil => rfl
  | cons c rest ih =>
    rw [splitLines, if_neg (h c (by simp))]
    rw [ih (fun c hc => h c (by simp [hc]))]

theorem joinLines_cons (l : Str) (ls : List Str) (h : ls ≠ []) :
    joinLines (l :: ls) = l ++ '\n' :: joinLines ls := by
  cases ls with
  | nil => exact absurd rfl h
  | cons a as => rfl

theorem joinLines_splitLines (s : Str) : joinLines (splitLines s) = s := by
  induction s with
  | nil => rfl
  | cons c rest ih =>
    rw [splitLines]
    by_cases hc : c = '\n'
    · rw [if_pos hc, joinLines_cons _ _ (splitLines_ne_nil rest), ih, hc]
      rfl
    · rw [if_neg hc]
      cases h : splitLines rest with
      | nil => exact absurd h (splitLines_ne_nil rest)
      | cons l ls =>
        rw [h] at ih
        cases ls with
        | nil =>
          simp only [joinLines] at ih ⊢
          rw [ih]
        | cons b bs =>
          rw [joinLines_cons _ _ (by simp)] at ih
          rw [joinLines_cons _ _ (by simp)]
          simp only [List.cons_append, ih]

theorem joinLines_append (xs ys : List Str) (hx : xs ≠ []) (hy : ys ≠ []) :
    joinLines (xs ++ ys) = joinLines xs ++ '\n' :: joinLines ys := by
  induction xs with
  | nil => exact absurd rfl hx
  | cons x xs ih =>
    cases xs with
    | nil =>
      rw [List.singleton_append, joinLines_cons _ _ hy]
      rfl
    | cons b bs =>
      rw [List.cons_append, joinLines_cons _ _ (by simp),
        joinLines_cons _ _ (by simp), ih (by simp)]
      simp

theorem splitLines_joinLines (L : List Str) (hne : L ≠ [])
    (h : ∀ l ∈ L, ∀ c ∈ l, ¬ c = '\n') : splitLines (joinLines L) = L := by
  induction L with
  | nil => exact absurd rfl hne
  | cons x L ih =>
    cases L with
    | nil => exact splitLines_no_nl x (h x (by simp))
    | cons b bs =>
      rw [joinLines_cons _ _ (by simp), splitLines_append,
        splitLines_no_nl x (h x (by simp)),
        ih (by simp) (fun l hl c hc => h l (by simp [hl]) c hc)]
      rfl

theorem partLinesSep_eq (ps : List Str) (h : ps ≠ []) :
    partLinesSep ps = [] :: partLines ps := by
  cases ps with
  | nil => exact absurd rfl h
  | cons p ps => rfl

theorem splitLines_joinNN (P : List Str) (h : P ≠ []) :
    splitLines (joinNN P) = partLines P := by
  induction P with
  | nil => exact absurd rfl h
  | cons p ps ih =>
    cases ps with
    | nil => simp [joinNN, partLines, partLinesSep]
    | cons q qs =>
      have h1 : joinNN (p :: q :: qs) = p ++ '\n' :: ('\n' :: joinNN (q :: qs)) := rfl
      have h2 : partLines (p :: q :: qs) = splitLines p ++ [] :: partLines (q :: qs) := by
        rw [partLines, partLinesSep_eq (q :: qs) (by simp)]
      have h3 : splitLines ('\n' :: joinNN (q :: qs)) = [] :: splitLines (joinNN (q :: qs)) := by
        simp [splitLines]
      rw [h1, splitLines_append, h3, ih (by simp), h2]

theorem joinLines_partLines (P : List Str) (h : P ≠ []) :
    joinLines (partLines P) = joinNN P := by
  rw [← splitLines_joinNN P h, joinLines_splitLines]

/-! ### Fence-scan algebra -/

theorem scanFence_append (x y : List Str) (b : Bool) :
    scanFence b (x ++ y) = scanFence (scanFence b x) y := by
  induction x generalizing b with
  | nil => rfl
  | cons l ls ih => simp only [List.cons_append, scanFence, List.append_eq, ih]

theorem hitFree_append (x y : List Str) (b : Bool) :
    hitFree b (x ++ y) = (hitFree b x && hitFree (scanFence b x) y) := by
  induction x generalizing b with
  | nil => simp [hitFree, scanFence]
  | cons l ls ih =>
    simp only [List.cons_append, hitFree, scanFence, List.append_eq]
    by_cases hf : fenceStr.isPrefixOf (jsTrim l) = true
    · simp [hf, ih]
    · by_cases hb : b = true
      · simp [hf, hb, ih]
      · simp only [Bool.not_eq_true] at hb
        subst hb
        by_cases hm : jsTrim l = markerStr
        · have hpm : (fenceStr <+: markerStr) = False := by
            simp only [eq_iff_iff, iff_false]
            decide
          simp [hf, hm, hpm]
        · simp [hf, hm, ih]

theorem hitFree_blank (b : Bool) : hitFree b [([] : Str)] = true := by
  cases b <;> decide

theorem scanFence_blank (b : Bool) : scanFence b [([] : Str)] = b := by
  cases b <;> decide

/-! ### Single-line safety -/

theorem dropWhile_append_last {q : Char → Bool} (xs : Str) (c : Char)
    (hc : q c = false) : ∃ ys, (xs ++ [c]).dropWhile q = ys ++ [c] := by
  induction xs with
  | nil => exact ⟨[], by simp [List.dropWhile, hc]⟩
  | cons x xs ih =>
    by_cases hx : q x = true
    · simpa [List.dropWhile, hx] using ih
    · exact ⟨x :: xs, by simp [List.dropWhile, hx]⟩

theorem jsTrim_cons_head (c : Char) (l : Str) (hc : isJsWs c = false) :
    ∃ l2, jsTrim (c :: l) = c :: l2 := by
  rw [jsTrim]
  rw [List.dropWhile_cons_of_neg (by simp [hc])]
  have : (c :: l).reverse = l.reverse ++ [c] := by simp
  rw [this]
  obtain ⟨ys, hys⟩ := dropWhile_append_last l.reverse c hc
  rw [hys]
  exact ⟨ys.reverse, by simp⟩

theorem lineSafe_of_head (c : Char) (l : Str) (hws : isJsWs c = false)
    (hbt : ¬ c = '`') (hlt : ¬ c = '<') : lineSafe (c :: l) = true := by
  obtain ⟨l2, hl2⟩ := jsTrim_cons_head c l hws
  have hbc : ('`' == c) = false := by
    simp only [beq_eq_false_iff_ne, ne_eq]
    exact fun h => hbt h.symm
  have h1 : fenceStr.isPrefixOf (c :: l2) = false := by
    have he : fenceStr.isPrefixOf (c :: l2) = ('`' == c && List.isPrefixOf ['`', '`'] l2) := rfl
    rw [he, hbc, Bool.false_and]
  have h2 : ¬ (c :: l2 = markerStr) := by
    intro h
    have hm : markerStr = '<' :: "!--subpage-->".data := by decide
    exact hlt (List.head_eq_of_cons_eq (h.trans hm))
  rw [lineSafe, hl2]
  simp [h1, h2]

theorem hitFree_of_lineSafe (ls : List Str) (h : ls.all lineSafe = true) :
    hitFree false ls = true ∧ scanFence false ls = false := by
  induction ls with
  | nil => exact ⟨rfl, rfl⟩
  | cons l ls ih =>
    simp only [List.all_cons, Bool.and_eq_true] at h
    have h1 : fenceStr.isPrefixOf (jsTrim l) = false := by
      have := h.1
      rw [lineSafe] at this
      simp only [Bool.and_eq_true, Bool.not_eq_true'] at this
      exact this.1
    have h2 : ¬ (jsTrim l = markerStr) := by
      have := h.1
      rw [lineSafe] at this
      simp only [Bool.and_eq_true, Bool.not_eq_true'] at this
      simpa using this.2
    obtain ⟨ih1, ih2⟩ := ih h.2
    constructor
    · rw [hitFree]
      simp only [h1, Bool.false_eq_true, if_neg, if_false]
      simp [h2, ih1]
    · rw [scanFence, if_neg (by simp [h1]), ih2]

/-! ### Splitter step lemmas -/

theorem splitSM_fence_step (l : Str) (rest : List Str) (b : Bool)
    (hf : fenceStr.isPrefixOf (jsTrim l) = true) :
    splitSM (l :: rest) (.mainMode b) =
      (l :: (splitSM rest (.mainMode !b)).1, (splitSM rest (.mainMode !b)).2) := by
  simp [splitSM, hf]

theorem splitSM_code_step (l : Str) (rest : List Str)
    (hf : fenceStr.isPrefixOf (jsTrim l) = false) :
    splitSM (l :: rest) (.mainMode true) =
      (l :: (splitSM rest (.mainMode true)).1, (splitSM rest (.mainMode true)).2) := by
  simp [splitSM, hf]

theorem splitSM_marker_step (l : Str) (rest : List Str)
    (hm : jsTrim l = markerStr) :
    splitSM (l :: rest) (.mainMode false) = splitSM rest (.seekMode [l]) := by
  have hpm : ¬ (fenceStr <+: markerStr) := by decide
  simp [splitSM, hm, hpm]

theorem splitSM_plain_step (l : Str) (rest : List Str)
    (hf : fenceStr.isPrefixOf (jsTrim l) = false) (hm : ¬ jsTrim l = markerStr) :
    splitSM (l :: rest) (.mainMode false) =
      (l :: (splitSM rest (.mainMode false)).1, (splitSM rest (.mainMode false)).2) := by
  simp [splitSM, hf, hm]

theorem splitSM_seek_blank (l : Str) (rest : List Str) (buffered : List Str)
    (hb : (jsTrim l).isEmpty = true) :
    splitSM (l :: rest) (.seekMode buffered) =
      splitSM rest (.seekMode (buffered ++ [l])) := by
  simp [splitSM, hb]

theorem splitSM_seek_heading (l : Str) (rest : List Str) (buffered : List Str)
    (ti : Str) (hb : (jsTrim l).isEmpty = false) (hm : matchHeadingLine l = some ti) :
    splitSM (l :: rest) (.seekMode buffered) =
      splitSM rest (.collectMode ti [l] false) := by
  simp [splitSM, hb, hm]

theorem splitSM_collect_fence (l : Str) (rest : List Str) (ti : Str)
    (buf : List Str) (inC : Bool) (hf : fenceStr.isPrefixOf (jsTrim l) = true) :
    splitSM (l :: rest) (.collectMode ti buf inC) =
      splitSM rest (.collectMode ti (buf ++ [l]) (!inC)) := by
  have hm : ¬ jsTrim l = markerStr := by
    intro h
    rw [h] at hf
    exact absurd hf (by decide)
  simp [splitSM, hf, hm]

theorem splitSM_collect_in (l : Str) (rest : List Str) (ti : Str)
    (buf : List Str) (hf : fenceStr.isPrefixOf (jsTrim l) = false) :
    splitSM (l :: rest) (.collectMode ti buf true) =
      splitSM rest (.collectMode ti (buf ++ [l]) true) := by
  simp [splitSM, hf]

theorem splitSM_collect_plain (l : Str) (rest : List Str) (ti : Str)
    (buf : List Str) (hf : fenceStr.isPrefixOf (jsTrim l) = false)
    (hm : ¬ jsTrim l = markerStr) :
    splitSM (l :: rest) (.collectMode ti buf false) =
      splitSM rest (.collectMode ti (buf ++ [l]) false) := by
  simp [splitSM, hf, hm]

theorem splitSM_collect_marker (l : Str) (rest : List Str) (ti : Str)
    (buf : List Str) (hm : jsTrim l = markerStr) :
    splitSM (l :: rest) (.collectMode ti buf false) =
      ((splitSM rest (.seekMode [l])).1,
       (ti, joinLines buf) :: (splitSM rest (.seekMode [l])).2) := by
  have hf : fenceStr.isPrefixOf (jsTrim l) = false := by
    rw [hm]
    decide
  have hpm : ¬ (fenceStr <+: markerStr) := by decide
  simp [splitSM, hf, hm, hpm]

/-! ### Splitter consumption of marker-free line runs -/

theorem splitSM_main_consume (ls : List Str) : ∀ (b : Bool) (rest : List Str),
    hitFree b ls = true →
    splitSM (ls ++ rest) (.mainMode b) =
      (ls ++ (splitSM rest (.mainMode (scanFence b ls))).1,
       (splitSM rest (.mainMode (scanFence b ls))).2) := by
  induction ls with
  | nil =>
    intro b rest _
    simp [scanFence]
  | cons l ls ih =>
    intro b rest hh
    rw [hitFree] at hh
    by_cases hf : fenceStr.isPrefixOf (jsTrim l) = true
    · simp only [hf, if_pos] at hh
      rw [List.cons_append, splitSM_fence_step l _ b hf, ih (!b) rest hh]
      simp [scanFence, hf]
    · have hf2 : fenceStr.isPrefixOf (jsTrim l) = false := Bool.eq_false_iff.mpr hf
      simp only [hf, Bool.false_eq_true, if_false] at hh
      by_cases hb : b = true
      · subst hb
        simp only [if_pos rfl] at hh
        rw [List.cons_append, splitSM_code_step l _ hf2, ih true rest hh]
        simp [scanFence, hf2]
      · simp only [Bool.not_eq_true] at hb
        subst hb
        by_cases hm : jsTrim l = markerStr
        · rw [if_neg (by simp), if_pos hm] at hh
          exact absurd hh (by simp)
        · rw [if_neg (by simp), if_neg hm] at hh
          rw [List.cons_append, splitSM_plain_step l _ hf2 hm, ih false rest hh]
          simp [scanFence, hf2]

theorem splitSM_collect_consume (ls : List Str) : ∀ (inC : Bool) (ti : Str)
    (buf rest : List Str), hitFree inC ls = true →
    splitSM (ls ++ rest) (.collectMode ti buf inC) =
      splitSM rest (.collectMode ti (buf ++ ls) (scanFence inC ls)) := by
  induction ls with
  | nil =>
    intro inC ti buf rest _
    simp [scanFence]
  | cons l ls ih =>
    intro inC ti buf rest hh
    rw [hitFree] at hh
    by_cases hf : fenceStr.isPrefixOf (jsTrim l) = true
    · simp only [hf, if_pos] at hh
      rw [List.cons_append, splitSM_collect_fence l _ ti buf inC hf,
        ih (!inC) ti (buf ++ [l]) rest hh]
      simp [scanFence, hf]
    · have hf2 : fenceStr.isPrefixOf (jsTrim l) = false := Bool.eq_false_iff.mpr hf
      simp only [hf, Bool.false_eq_true, if_false] at hh
      by_cases hb : inC = true
      · subst hb
        simp only [if_pos rfl] at hh
        rw [List.cons_append, splitSM_collect_in l _ ti buf hf2,
          ih true ti (buf ++ [l]) rest hh]
        simp [scanFence, hf2]
      · simp only [Bool.not_eq_true] at hb
        subst hb
        by_cases hm : jsTrim l = markerStr
        · rw [if_neg (by simp), if_pos hm] at hh
          exact absurd hh (by simp)
        · rw [if_neg (by simp), if_neg hm] at hh
          rw [List.cons_append, splitSM_collect_plain l _ ti buf hf2 hm,
            ih false ti (buf ++ [l]) rest hh]
          simp [scanFence, hf2]

/-! ### Heading and marker part facts -/

theorem matchHeadingLine_head (l : Str) (ti : Str)
    (h : matchHeadingLine l = some ti) : ∃ r, l = '#' :: r := by
  cases l with
  | nil => simp [matchHeadingLine, List.takeWhile] at h
  | cons c r =>
    by_cases hc : c = '#'
    · exact ⟨r, by rw [hc]⟩
    · rw [matchHeadingLine] at h
      rw [List.takeWhile_cons_of_neg (by simp [hc])] at h
      simp at h

theorem headingPart_facts (p : Str) (h : headingPart p = true) :
    splitLines p = [p] ∧ (jsTrim p).isEmpty = false ∧
      matchHeadingLine p = some ((matchHeadingLine p).getD []) ∧
      ¬ p = markerStr ∧ cleanPart p = true := by
  rw [headingPart, Bool.and_eq_true, decide_eq_true_eq] at h
  obtain ⟨h1, h2⟩ := h
  obtain ⟨ti, hti⟩ := Option.isSome_iff_exists.mp h2
  obtain ⟨r, hr⟩ := matchHeadingLine_head p ti hti
  have hws : isJsWs '#' = false := by decide
  obtain ⟨l2, hl2⟩ := jsTrim_cons_head '#' r hws
  rw [← hr] at hl2
  refine ⟨h1, ?_, ?_, ?_, ?_⟩
  · rw [hl2]
    rfl
  · rw [hti]
    rfl
  · intro hpm
    rw [hpm] at hr
    have hm2 : markerStr = '<' :: "!--subpage-->".data := by decide
    have hhd : '<' = '#' := List.head_eq_of_cons_eq (hm2.symm.trans hr)
    exact absurd hhd (by decide)
  · have hsafe : lineSafe p = true := by
      rw [hr]
      exact lineSafe_of_head '#' r hws (by decide) (by decide)
    rw [cleanPart, h1]
    obtain ⟨ha, hb⟩ := hitFree_of_lineSafe [p] (by simp [hsafe])
    rw [ha, hb]
    rfl

theorem cleanPart_ne_marker (p : Str) (h : cleanPart p = true) : ¬ p = markerStr := by
  intro hp
  rw [hp] at h
  exact absurd h (by decide)

theorem goodParts_cons (p : Str) (ps : List Str) :
    goodParts (p :: ps) =
      ((if p = markerStr then
         (match ps with | q :: _ => headingPart q | [] => false)
        else cleanPart p) && goodParts ps) := rfl

theorem goodParts_tail (p : Str) (ps : List Str)
    (h : goodParts (p :: ps) = true) : goodParts ps = true := by
  rw [goodParts_cons, Bool.and_eq_true] at h
  exact h.2

theorem goodParts_cons_clean (p : Str) (ps : List Str)
    (hp : cleanPart p = true) (hps : goodParts ps = true) :
    goodParts (p :: ps) = true := by
  rw [goodParts_cons, if_neg (cleanPart_ne_marker p hp), hp, hps]
  rfl

theorem goodParts_append_clean (A R : List Str) (hA : A.all cleanPart = true)
    (hR : goodParts R = true) : goodParts (A ++ R) = true := by
  induction A with
  | nil => exact hR
  | cons a A ih =>
    simp only [List.all_cons, Bool.and_eq_true] at hA
    exact goodParts_cons_clean a (A ++ R) hA.1 (ih hA.2)

/-! ### Group decomposition facts -/

theorem groupsOfGo_ne_nil (ps cur : List Str) : groupsOfGo ps cur ≠ [] := by
  induction ps generalizing cur with
  | nil => simp [groupsOfGo]
  | cons p ps ih =>
    rw [groupsOfGo]
    by_cases hp : p = markerStr
    · simp [hp]
    · simp only [if_neg hp]
      exact ih _

theorem groupsOfGo_split (ps : List Str) : ∀ cur,
    groupsOfGo ps cur =
      (cur.reverse ++ ps.takeWhile (fun p => decide (p ≠ markerStr))) ::
        (match ps.dropWhile (fun p => decide (p ≠ markerStr)) with
         | [] => []
         | _ :: ps2 => groupsOfGo ps2 []) := by
  induction ps with
  | nil => intro cur; simp [groupsOfGo]
  | cons p ps ih =>
    intro cur
    by_cases hp : p = markerStr
    · rw [groupsOfGo, if_pos hp, List.takeWhile_cons_of_neg (by simp [hp]),
        List.dropWhile_cons_of_neg (by simp [hp])]
      simp
    · rw [groupsOfGo, if_neg hp, ih (p :: cur),
        List.takeWhile_cons_of_pos (by simp [hp]),
        List.dropWhile_cons_of_pos (by simp [hp])]
      simp

theorem expectedFromGroups_cons (g : List Str) (gs : List (List Str)) :
    expectedFromGroups (g :: gs) =
      (titleOfGroup g, joinNN g ++ (if gs = [] then [] else ['\n'])) ::
        expectedFromGroups gs := by
  cases gs with
  | nil => simp [expectedFromGroups]
  | cons g2 gs => simp [expectedFromGroups]

/-! ### The splitter on a good parts list -/

theorem collectOut_none (ti : Str) (B ps : List Str)
    (h : ps.dropWhile (fun p => decide (p ≠ markerStr)) = []) :
    collectOut ti B ps =
      [(ti, joinLines (B ++ partLinesSep (ps.takeWhile (fun p => decide (p ≠ markerStr)))))] := by
  unfold collectOut
  rw [h]

theorem collectOut_marker (ti : Str) (B ps : List Str) (m : Str) (ps2 : List Str)
    (h : ps.dropWhile (fun p => decide (p ≠ markerStr)) = m :: ps2) :
    collectOut ti B ps =
      (ti, joinLines (B ++ partLinesSep (ps.takeWhile (fun p => decide (p ≠ markerStr))) ++ [[]]))
        :: expectedFromGroups (groupsOfGo ps2 []) := by
  unfold collectOut
  rw [h]

theorem hitFree_blank_cons (L : List Str) (b : Bool) :
    hitFree b ([] :: L) = hitFree b L := by
  have h1 : fenceStr.isPrefixOf (jsTrim ([] : Str)) = false := by decide
  have h2 : ¬ (jsTrim ([] : Str) = markerStr) := by decide
  cases b <;> simp [hitFree, h1, h2]

theorem scanFence_blank_cons (L : List Str) (b : Bool) :
    scanFence b ([] :: L) = scanFence b L := by
  have h1 : fenceStr.isPrefixOf (jsTrim ([] : Str)) = false := by decide
  rw [scanFence, if_neg (by simp [h1])]

theorem titleOfGroup_cons (p : Str) (A : List Str) :
    titleOfGroup (p :: A) = (matchHeadingLine p).getD [] := rfl

theorem partLines_cons (p : Str) (ps : List Str) :
    partLines (p :: ps) = splitLines p ++ partLinesSep ps := rfl

theorem cleanPart_split (p : Str) (h : cleanPart p = true) :
    hitFree false (splitLines p) = true ∧ scanFence false (splitLines p) = false := by
  rw [cleanPart, Bool.and_eq_true] at h
  exact ⟨h.1, by simpa using h.2⟩

theorem splitSM_run (n : Nat) : ∀ ps : List Str, ps.length ≤ n →
    goodParts ps = true →
    ((∀ hl rest buffered, ps = hl :: rest → headingPart hl = true →
      (splitSM (partLinesSep ps) (.seekMode buffered)).2 =
        expectedFromGroups (groupsOfGo ps [])) ∧
     (∀ ti B, (splitSM (partLinesSep ps) (.collectMode ti B false)).2 =
        collectOut ti B ps)) := by
  induction n with
  | zero =>
    intro ps hlen hgood
    have hps : ps = [] := List.eq_nil_of_length_eq_zero (Nat.le_zero.mp hlen)
    subst hps
    refine ⟨fun hl rest buffered heq _ => absurd heq (by simp), fun ti B => ?_⟩
    rw [collectOut_none ti B [] rfl]
    simp [partLinesSep, splitSM]
  | succ n ih =>
    intro ps hlen hgood
    cases ps with
    | nil =>
      refine ⟨fun hl rest buffered heq _ => absurd heq (by simp), fun ti B => ?_⟩
      rw [collectOut_none ti B [] rfl]
      simp [partLinesSep, splitSM]
    | cons p ps2 =>
      have hlen2 : ps2.length ≤ n := by
        simp only [List.length_cons] at hlen
        omega
      have hgood2 : goodParts ps2 = true := goodParts_tail p ps2 hgood
      constructor
      · -- seek mode on a heading-led parts list
        intro hl rest buffered heq hhp
        injection heq with he1 he2
        subst he1
        subst he2
        obtain ⟨hsplit, hne, hsome, hnm, _⟩ := headingPart_facts p hhp
        have htake : List.takeWhile (fun q => decide (q ≠ markerStr)) (p :: ps2) =
            p :: List.takeWhile (fun q => decide (q ≠ markerStr)) ps2 := by
          simp [List.takeWhile_cons, hnm]
        have hdrop2 : List.dropWhile (fun q => decide (q ≠ markerStr)) (p :: ps2) =
            List.dropWhile (fun q => decide (q ≠ markerStr)) ps2 := by
          simp [List.dropWhile_cons, hnm]
        have hpl : partLinesSep (p :: ps2) = [] :: p :: partLinesSep ps2 := by
          rw [partLinesSep, hsplit]
          rfl
        have hjoin : ∀ A : List Str,
            joinLines ([p] ++ partLinesSep A) = joinNN (p :: A) := by
          intro A
          rw [← joinLines_partLines (p :: A) (by simp), partLines_cons, hsplit]
        rw [hpl, splitSM_seek_blank _ _ _ (by decide),
          splitSM_seek_heading p _ _ _ hne hsome,
          (ih ps2 hlen2 hgood2).2 ((matchHeadingLine p).getD []) [p],
          groupsOfGo_split (p :: ps2) [], htake, hdrop2]
        cases hd : ps2.dropWhile (fun q => decide (q ≠ markerStr)) with
        | nil =>
          rw [collectOut_none _ _ _ hd]
          simp only [List.reverse_nil, List.nil_append]
          rw [expectedFromGroups_cons, titleOfGroup_cons]
          rw [if_pos rfl, List.append_nil, hjoin]
          rfl
        | cons m ps3 =>
          rw [collectOut_marker _ _ _ _ _ hd]
          simp only [List.reverse_nil, List.nil_append]
          rw [expectedFromGroups_cons, titleOfGroup_cons,
            if_neg (groupsOfGo_ne_nil ps3 [])]
          have hcontent :
              joinLines ([p] ++ partLinesSep (ps2.takeWhile (fun q => decide (q ≠ markerStr))) ++ [[]]) =
                joinNN (p :: ps2.takeWhile (fun q => decide (q ≠ markerStr))) ++ ['\n'] := by
            rw [joinLines_append _ [[]] (by simp) (by simp), hjoin]
            rfl
          rw [hcontent]
      · -- collect mode
        intro ti B
        by_cases hp : p = markerStr
        · -- marker part: emit the pending section, seek again
          rw [goodParts_cons, if_pos hp, Bool.and_eq_true] at hgood
          cases ps2 with
          | nil => simp at hgood
          | cons hl rest =>
            have hhp : headingPart hl = true := hgood.1
            subst hp
            have hpl : partLinesSep (markerStr :: hl :: rest) =
                [] :: markerStr :: partLinesSep (hl :: rest) := by
              rw [partLinesSep, show splitLines markerStr = [markerStr] by decide]
              rfl
            rw [hpl, splitSM_collect_plain _ _ _ _ (by decide) (by decide),
              splitSM_collect_marker _ _ _ _ (by decide)]
            have hdrop : (markerStr :: hl :: rest).dropWhile (fun q => decide (q ≠ markerStr)) =
                markerStr :: hl :: rest :=
              List.dropWhile_cons_of_neg (by simp)
            rw [collectOut_marker _ _ _ _ _ hdrop]
            have htake : (markerStr :: hl :: rest).takeWhile (fun q => decide (q ≠ markerStr)) =
                ([] : List Str) :=
              List.takeWhile_cons_of_neg (by simp)
            rw [htake]
            simp only [Prod.snd]
            rw [(ih (hl :: rest) hlen2 hgood2).1 hl rest [markerStr] rfl hhp]
            simp [partLinesSep]
        · -- clean part: consumed into the buffer
          have hcl : cleanPart p = true := by
            rw [goodParts_cons, if_neg hp, Bool.and_eq_true] at hgood
            exact hgood.1
          obtain ⟨hith, hsf⟩ := cleanPart_split p hcl
          have htake : List.takeWhile (fun q => decide (q ≠ markerStr)) (p :: ps2) =
              p :: List.takeWhile (fun q => decide (q ≠ markerStr)) ps2 := by
            simp [List.takeWhile_cons, hp]
          have hdrop2 : List.dropWhile (fun q => decide (q ≠ markerStr)) (p :: ps2) =
              List.dropWhile (fun q => decide (q ≠ markerStr)) ps2 := by
            simp [List.dropWhile_cons, hp]
          have hpl : partLinesSep (p :: ps2) =
              ([] :: splitLines p) ++ partLinesSep ps2 := rfl
          have hhit : hitFree false ([] :: splitLines p) = true := by
            rw [hitFree_blank_cons]
            exact hith
          have hscan : scanFence false ([] :: splitLines p) = false := by
            rw [scanFence_blank_cons]
            exact hsf
          rw [hpl, splitSM_collect_consume ([] :: splitLines p) false ti B
            (partLinesSep ps2) hhit, hscan,
            (ih ps2 hlen2 hgood2).2 ti (B ++ ([] :: splitLines p))]
          cases hd : ps2.dropWhile (fun q => decide (q ≠ markerStr)) with
          | nil =>
            rw [collectOut_none _ _ _ hd,
              collectOut_none _ _ _ (hdrop2.trans hd), htake]
            simp [partLinesSep, List.append_assoc]
          | cons m ps3 =>
            rw [collectOut_marker _ _ _ _ _ hd,
              collectOut_marker _ _ _ _ _ (hdrop2.trans hd), htake]
            simp [partLinesSep, List.append_assoc]

theorem splitSM_main_run : ∀ P : List Str, goodParts P = true →
    (splitSM (partLines P) (.mainMode false)).2 =
      expectedFromGroups (splitAtMarkers P).2 := by
  intro P
  induction P with
  | nil =>
    intro _
    simp [partLines, splitSM, splitAtMarkers, expectedFromGroups]
  | cons p ps ihP =>
    intro hgood
    by_cases hp : p = markerStr
    · subst hp
      rw [goodParts_cons, if_pos rfl, Bool.and_eq_true] at hgood
      cases ps with
      | nil => simp at hgood
      | cons hl rest =>
        have hhp : headingPart hl = true := hgood.1
        have hpl : partLines (markerStr :: hl :: rest) =
            markerStr :: partLinesSep (hl :: rest) := by
          rw [partLines_cons, show splitLines markerStr = [markerStr] by decide]
          rfl
        rw [hpl, splitSM_marker_step _ _ (by decide),
          (splitSM_run (hl :: rest).length (hl :: rest) le_rfl hgood.2).1
            hl rest [markerStr] rfl hhp]
        have hsam : (splitAtMarkers (markerStr :: hl :: rest)).2 =
            groupsOfGo (hl :: rest) [] := by
          unfold splitAtMarkers
          rw [List.dropWhile_cons_of_neg (by simp)]
        rw [hsam]
    · have hcl : cleanPart p = true := by
        rw [goodParts_cons, if_neg hp, Bool.and_eq_true] at hgood
        exact hgood.1
      obtain ⟨hith, hsf⟩ := cleanPart_split p hcl
      have hsam : (splitAtMarkers (p :: ps)).2 = (splitAtMarkers ps).2 := by
        simp [splitAtMarkers, List.dropWhile_cons, hp]
      rw [hsam]
      cases ps with
      | nil =>
        have hpl : partLines [p] = splitLines p ++ ([] : List Str) := by
          rw [partLines_cons]
          rfl
        rw [hpl, splitSM_main_consume (splitLines p) false [] hith]
        simp [splitSM, splitAtMarkers, expectedFromGroups]
      | cons q qs =>
        have hpl : partLines (p :: q :: qs) =
            (splitLines p ++ [[]]) ++ partLines (q :: qs) := by
          rw [partLines_cons, partLinesSep_eq (q :: qs) (by simp)]
          simp
        have hls : hitFree false (splitLines p ++ [[]]) = true := by
          rw [hitFree_append, hith, hsf, hitFree_blank]
          rfl
        have hscan : scanFence false (splitLines p ++ [[]]) = false := by
          rw [scanFence_append, hsf, scanFence_blank]
        rw [hpl, splitSM_main_consume (splitLines p ++ [[]]) false
          (partLines (q :: qs)) hls, hscan,
          ihP (goodParts_tail p (q :: qs) hgood)]

/-! ### Cleanliness of rendered parts -/

theorem hitFree_partLinesSep (A : List Str) (h : A.all cleanPart = true) :
    hitFree false (partLinesSep A) = true ∧
      scanFence false (partLinesSep A) = false := by
  induction A with
  | nil => exact ⟨rfl, rfl⟩
  | cons p A ih =>
    simp only [List.all_cons, Bool.and_eq_true] at h
    obtain ⟨ih1, ih2⟩ := ih h.2
    obtain ⟨hi, hs⟩ := cleanPart_split p h.1
    constructor
    · rw [partLinesSep, hitFree_blank_cons, hitFree_append, hi, hs, ih1]
      rfl
    · rw [partLinesSep, scanFence_blank_cons, scanFence_append, hs, ih2]

theorem hitFree_partLines (A : List Str) (h : A.all cleanPart = true) :
    hitFree false (partLines A) = true ∧
      scanFence false (partLines A) = false := by
  cases A with
  | nil => exact ⟨rfl, rfl⟩
  | cons p ps =>
    simp only [List.all_cons, Bool.and_eq_true] at h
    obtain ⟨ih1, ih2⟩ := hitFree_partLinesSep ps h.2
    obtain ⟨hi, hs⟩ := cleanPart_split p h.1
    constructor
    · rw [partLines_cons, hitFree_append, hi, hs, ih1]
      rfl
    · rw [partLines_cons, scanFence_append, hs, ih2]

theorem cleanPart_joinNN (ps : List Str) (h : ps.all cleanPart = true) :
    cleanPart (joinNN ps) = true := by
  cases hps : ps with
  | nil => decide
  | cons q qs =>
    subst hps
    obtain ⟨h1, h2⟩ := hitFree_partLines (q :: qs) h
    rw [cleanPart, splitLines_joinNN (q :: qs) (by simp), h1, h2]
    rfl

theorem cleanPart_of_lineSafe (p : Str) (h : (splitLines p).all lineSafe = true) :
    cleanPart p = true := by
  obtain ⟨h1, h2⟩ := hitFree_of_lineSafe _ h
  rw [cleanPart, h1, h2]
  rfl

theorem splitLines_cons_head (c : Char) (s : Str) (hc : ¬ c = '\n') :
    ∃ h t, splitLines s = h :: t ∧ splitLines (c :: s) = (c :: h) :: t := by
  cases hs : splitLines s with
  | nil => exact absurd hs (splitLines_ne_nil s)
  | cons h t =>
    refine ⟨h, t, rfl, ?_⟩
    rw [splitLines, if_neg hc, hs]

theorem splitLines_append_no_nl (x s : Str) (hx : ∀ c ∈ x, ¬ c = '\n') :
    ∃ h t, splitLines s = h :: t ∧ splitLines (x ++ s) = (x ++ h) :: t := by
  induction x with
  | nil =>
    cases hs : splitLines s with
    | nil => exact absurd hs (splitLines_ne_nil s)
    | cons h t => exact ⟨h, t, rfl, by simpa using hs⟩
  | cons c x ih =>
    obtain ⟨h, t, hs, hxs⟩ := ih (fun d hd => hx d (by simp [hd]))
    obtain ⟨h2, t2, hs2, hcs⟩ := splitLines_cons_head c (x ++ s) (hx c (by simp))
    rw [hxs] at hs2
    injection hs2 with e1 e2
    subst e1
    subst e2
    exact ⟨h, t, hs, by simpa using hcs⟩

theorem cleanPart_pre (pre text : Str) (hpre : ∀ c ∈ pre, ¬ c = '\n')
    (hhead : ∃ c r, pre = c :: r ∧ isJsWs c = false ∧ ¬ c = '`' ∧ ¬ c = '<')
    (htext : (splitLines text).all lineSafe = true) :
    cleanPart (pre ++ text) = true := by
  obtain ⟨h, t, hs, hps⟩ := splitLines_append_no_nl pre text hpre
  obtain ⟨c, r, hc, hw, hb, hl⟩ := hhead
  apply cleanPart_of_lineSafe
  rw [hps, List.all_cons]
  have hhd : lineSafe (pre ++ h) = true := by
    rw [hc, List.cons_append]
    exact lineSafe_of_head c (r ++ h) hw hb hl
  rw [hhd]
  rw [hs, List.all_cons, Bool.and_eq_true] at htext
  rw [htext.2]
  rfl

theorem splitLinesRN_ne_nil (s : Str) : splitLinesRN s ≠ [] := by
  induction s using splitLinesRN.induct with
  | case1 => simp [splitLinesRN]
  | case2 rest ih => simp [splitLinesRN]
  | case3 rest ih => simp [splitLinesRN]
  | case4 c rest hx1 hx2 hnil ih => exact absurd hnil ih
  | case5 c rest hx1 hx2 l ls hcons ih =>
    rw [splitLinesRN.eq_def]
    split
    · simp
    · simp
    · simp
    · split <;> simp

theorem splitLinesRN_no_nl (s : Str) :
    ∀ l ∈ splitLinesRN s, ∀ c ∈ l, ¬ c = '\n' := by
  induction s using splitLinesRN.induct with
  | case1 =>
    intro l hl c hc
    rw [show splitLinesRN [] = [[]] from rfl] at hl
    simp at hl
    subst hl
    simp at hc
  | case2 rest ih =>
    intro l hl c hc
    rw [show splitLinesRN ('\x0d' :: '\n' :: rest) = [] :: splitLinesRN rest from rfl] at hl
    rcases List.mem_cons.mp hl with h | h
    · subst h
      simp at hc
    · exact ih l h c hc
  | case3 rest ih =>
    intro l hl c hc
    rw [show splitLinesRN ('\n' :: rest) = [] :: splitLinesRN rest from rfl] at hl
    rcases List.mem_cons.mp hl with h | h
    · subst h
      simp at hc
    · exact ih l h c hc
  | case4 c0 rest hx1 hx2 hnil ih =>
    exact absurd hnil (splitLinesRN_ne_nil rest)
  | case5 c0 rest hx1 hx2 l0 ls0 hcons ih =>
    intro l hl c hc
    rw [splitLinesRN.eq_def] at hl
    split at hl
    · simp at hl
      subst hl
      simp at hc
    · rename_i r heq
      injection heq with e1 e2
      exact (hx1 r e1 e2).elim
    · rename_i r heq
      injection heq with e1 e2
      exact (hx2 e1).elim
    · rename_i ch c1 hrn hnn heq
      injection heq with e1 e2
      subst e1
      subst e2
      rw [hcons] at hl
      rcases List.mem_cons.mp hl with h | h
      · subst h
        rcases List.mem_cons.mp hc with h2 | h2
        · subst h2
          intro hb
          exact hnn hb
        · exact ih l0 (hcons ▸ List.mem_cons_self l0 ls0) c h2
      · exact ih l (hcons ▸ List.mem_cons_of_mem l0 h) c hc

theorem cleanPart_quote (t : Str) : cleanPart (formatAsBlockQuote t) = true := by
  rw [formatAsBlockQuote]
  by_cases hb : (jsTrim t).isEmpty = true
  · rw [if_pos hb]
    decide
  · rw [if_neg hb]
    have hLne : (splitLinesRN t).map (fun l =>
        if (jsTrim l).isEmpty then ['>'] else '>' :: ' ' :: l) ≠ [] := by
      simp [splitLinesRN_ne_nil t]
    have hnl : ∀ l ∈ (splitLinesRN t).map (fun l =>
        if (jsTrim l).isEmpty then ['>'] else '>' :: ' ' :: l), ∀ c ∈ l, ¬ c = '\n' := by
      intro l hl c hc
      obtain ⟨l0, hl0, hfl⟩ := List.mem_map.mp hl
      subst hfl
      by_cases h0 : (jsTrim l0).isEmpty = true
      · rw [if_pos h0] at hc
        simp at hc
        subst hc
        decide
      · rw [if_neg h0] at hc
        rcases List.mem_cons.mp hc with h1 | h1
        · subst h1
          decide
        · rcases List.mem_cons.mp h1 with h2 | h2
          · subst h2
            decide
          · exact splitLinesRN_no_nl t l0 hl0 c h2
    have hsafe : ((splitLinesRN t).map (fun l =>
        if (jsTrim l).isEmpty then ['>'] else '>' :: ' ' :: l)).all lineSafe = true := by
      rw [List.all_eq_true]
      intro l hl
      obtain ⟨l0, hl0, hfl⟩ := List.mem_map.mp hl
      subst hfl
      by_cases h0 : (jsTrim l0).isEmpty = true
      · rw [if_pos h0]
        exact lineSafe_of_head '>' [] (by decide) (by decide) (by decide)
      · rw [if_neg h0]
        exact lineSafe_of_head '>' (' ' :: l0) (by decide) (by decide) (by decide)
    rw [cleanPart, splitLines_joinLines _ hLne hnl]
    obtain ⟨h1, h2⟩ := hitFree_of_lineSafe _ hsafe
    rw [h1, h2]
    rfl

theorem contains_false_no (l : Str) (c : Char) :
    l.contains c = false → ∀ d ∈ l, ¬ d = c := by
  induction l with
  | nil =>
    intro _ d hd
    simp at hd
  | cons a as ih =>
    intro h d hd he
    subst he
    by_cases hda : (d == a) = true
    · have hct : (a :: as).contains d = true := by
        show List.elem d (a :: as) = true
        simp [List.elem, hda]
      rw [hct] at h
      exact absurd h (by simp)
    · have hel : (a :: as).contains d = as.contains d := by
        show List.elem d (a :: as) = List.elem d as
        simp [List.elem, hda]
      rw [hel] at h
      rcases List.mem_cons.mp hd with h1 | h1
      · subst h1
        simp at hda
      · exact ih h d h1 rfl

theorem dropWhile_append_three {q : Char → Bool} (xs : Str) (a b c : Char)
    (ha : q a = false) : ∃ ys, (xs ++ [a, b, c]).dropWhile q = ys ++ [a, b, c] := by
  induction xs with
  | nil => exact ⟨[], by simp [List.dropWhile, ha]⟩
  | cons x xs ih =>
    by_cases hx : q x = true
    · simpa [List.dropWhile, hx] using ih
    · exact ⟨x :: xs, by simp [List.dropWhile, hx]⟩

theorem fence_prefix_trim (s : Str) :
    fenceStr.isPrefixOf (jsTrim (fenceStr ++ s)) = true := by
  rw [show fenceStr ++ s = '`' :: '`' :: '`' :: s from rfl, jsTrim]
  have hdw : List.dropWhile isJsWs ('`' :: '`' :: '`' :: s) = '`' :: '`' :: '`' :: s :=
    List.dropWhile_cons_of_neg (by decide)
  rw [hdw]
  have h2 : ('`' :: '`' :: '`' :: s).reverse = s.reverse ++ ['`', '`', '`'] := by
    simp
  rw [h2]
  obtain ⟨ys, hys⟩ := @dropWhile_append_three isJsWs s.reverse '`' '`' '`' (by decide)
  rw [hys]
  have h3 : (ys ++ ['`', '`', '`']).reverse = '`' :: '`' :: '`' :: ys.reverse := by
    simp
  rw [h3, show fenceStr = ['`', '`', '`'] from rfl]
  simp [List.isPrefixOf]

theorem infence_scan (ls : List Str)
    (h : ls.all (fun l => !(fenceStr.isPrefixOf (jsTrim l))) = true) :
    hitFree true ls = true ∧ scanFence true ls = true := by
  induction ls with
  | nil => exact ⟨rfl, rfl⟩
  | cons l ls ih =>
    rw [List.all_cons, Bool.and_eq_true] at h
    have hl : fenceStr.isPrefixOf (jsTrim l) = false := by
      have := h.1
      rwa [Bool.not_eq_true'] at this
    obtain ⟨ih1, ih2⟩ := ih h.2
    constructor
    · rw [hitFree, if_neg (by simp [hl]), if_pos rfl]
      exact ih1
    · rw [scanFence, if_neg (by simp [hl])]
      exact ih2

theorem cleanPart_code (text lang : Str)
    (htext : (splitLines text).all (fun l => !(fenceStr.isPrefixOf (jsTrim l))) = true)
    (hlang : lang.contains '\n' = false) :
    cleanPart (fenceStr ++ lang ++ '\n' :: text ++ '\n' :: fenceStr) = true := by
  have hfl : splitLines (fenceStr ++ lang) = [fenceStr ++ lang] := by
    apply splitLines_no_nl
    intro c hc
    rcases List.mem_append.mp hc with h1 | h1
    · rw [show fenceStr = ['`', '`', '`'] from rfl] at h1
      simp at h1
      subst h1
      decide
    · exact contains_false_no lang '\n' hlang c h1
  have hlines : splitLines (fenceStr ++ lang ++ '\n' :: text ++ '\n' :: fenceStr) =
      (fenceStr ++ lang) :: (splitLines text ++ [fenceStr]) := by
    rw [show fenceStr ++ lang ++ '\n' :: text ++ '\n' :: fenceStr =
      (fenceStr ++ lang) ++ '\n' :: (text ++ '\n' :: fenceStr) by simp]
    rw [splitLines_append, hfl, splitLines_append,
      show splitLines fenceStr = [fenceStr] by decide]
    rfl
  obtain ⟨hin1, hin2⟩ := infence_scan (splitLines text) htext
  rw [cleanPart, hlines]
  have hh : hitFree false ((fenceStr ++ lang) :: (splitLines text ++ [fenceStr])) = true := by
    rw [hitFree, if_pos (fence_prefix_trim lang)]
    simp only [Bool.not_false]
    rw [hitFree_append, hin1, hin2]
    decide
  have hs : scanFence false ((fenceStr ++ lang) :: (splitLines text ++ [fenceStr])) = false := by
    rw [scanFence, if_pos (fence_prefix_trim lang)]
    simp only [Bool.not_false]
    rw [scanFence_append, hin2]
    decide
  rw [hh, hs]
  rfl

/-! ### Heading lines produced by the renderer -/

theorem takeWhile_hashRun : ∀ (n : Nat) (t : Str),
    (hashRun n ++ ' ' :: t).takeWhile (fun c => decide (c = '#')) = hashRun n := by
  intro n
  induction n with
  | zero =>
    intro t
    rw [hashRun, List.replicate_zero, List.nil_append,
      List.takeWhile_cons_of_neg (by decide)]
  | succ n ih =>
    intro t
    rw [hashRun, List.replicate_succ, List.cons_append,
      List.takeWhile_cons_of_pos (by decide)]
    have := ih t
    rw [hashRun] at this
    rw [this]

theorem jsTrim_ws_cons (c : Char) (s : Str) (hc : isJsWs c = true) :
    jsTrim (c :: s) = jsTrim s := by
  rw [jsTrim, jsTrim]
  have hdw : (c :: s).dropWhile isJsWs = s.dropWhile isJsWs :=
    List.dropWhile_cons_of_pos hc
  rw [hdw]

theorem mem_jsTrim (s : Str) (c : Char) (hc : c ∈ jsTrim s) : c ∈ s := by
  rw [jsTrim, List.mem_reverse] at hc
  have h2 := mem_of_mem_dropWhile hc
  rw [List.mem_reverse] at h2
  exact mem_of_mem_dropWhile h2

theorem headingPart_mk (h : Nat) (t : Str) (hne : t ≠ [])
    (hnl : ∀ c ∈ t, ¬ c = '\n') (hnr : ∀ c ∈ t, ¬ c = '\r') :
    headingPart (hashRun (min 6 (max 1 h)) ++ ' ' :: t) = true ∧
      matchHeadingLine (hashRun (min 6 (max 1 h)) ++ ' ' :: t) = some (jsTrim t) := by
  have h1n : 1 ≤ min 6 (max 1 h) := by omega
  have hn6 : min 6 (max 1 h) ≤ 6 := by omega
  have hsl : splitLines (hashRun (min 6 (max 1 h)) ++ ' ' :: t) =
      [hashRun (min 6 (max 1 h)) ++ ' ' :: t] := by
    apply splitLines_no_nl
    intro c hc
    rcases List.mem_append.mp hc with h1 | h1
    · rw [hashRun] at h1
      rw [List.eq_of_mem_replicate h1]
      decide
    · rcases List.mem_cons.mp h1 with h2 | h2
      · subst h2
        decide
      · exact hnl c h2
  have hdrop : (hashRun (min 6 (max 1 h)) ++ ' ' :: t).drop (min 6 (max 1 h)) =
      ' ' :: t := by
    rw [hashRun]
    have := List.drop_left (List.replicate (min 6 (max 1 h)) '#') (' ' :: t)
    rwa [List.length_replicate] at this
  have hlen : (hashRun (min 6 (max 1 h))).length = min 6 (max 1 h) := by
    rw [hashRun, List.length_replicate]
  have hjt : jsTrim (' ' :: t) = jsTrim t := jsTrim_ws_cons ' ' t (by decide)
  have hmatch : matchHeadingLine (hashRun (min 6 (max 1 h)) ++ ' ' :: t) =
      some (jsTrim t) := by
    rw [matchHeadingLine]
    rw [takeWhile_hashRun, hlen, hdrop]
    rw [if_pos (by simp [h1n, hn6])]
    by_cases hcore : (jsTrim t).isEmpty = true
    · have hany : t.any (fun d => !isLineTerm d) = true := by
        cases t with
        | nil => exact absurd rfl hne
        | cons c0 t2 =>
          have hc0 : isLineTerm c0 = false := by
            have ha := hnl c0 (by simp)
            have hb := hnr c0 (by simp)
            simp [isLineTerm, ha, hb]
          rw [List.any_cons]
          simp [hc0]
      have hjtnil : jsTrim t = [] := by simpa using hcore
      simp [isJsWs, hjt, hcore, hany, hjtnil]
    · have hall : (jsTrim t).all (fun d => !isLineTerm d) = true := by
        rw [List.all_eq_true]
        intro d hd
        have hdt : d ∈ t := mem_jsTrim t d hd
        have ha := hnl d hdt
        have hb := hnr d hdt
        simp [isLineTerm, ha, hb]
      simp [isJsWs, hjt, hcore, hall]
  refine ⟨?_, hmatch⟩
  rw [headingPart, hmatch]
  simp [hsl]

/-! ### Cleanliness of `extractBlockText` -/

theorem extract_clean (k : BKind) (text lang : Str) (hk : ¬ k = BKind.childPage)
    (hcode : k = BKind.code →
      (splitLines text).all (fun l => !(fenceStr.isPrefixOf (jsTrim l))) = true ∧
        lang.contains '\n' = false)
    (hplain : ¬ k = BKind.code → (splitLines text).all lineSafe = true) :
    cleanPart (extractBlockText k text lang) = true := by
  cases k with
  | paragraph => exact cleanPart_of_lineSafe text (hplain (by decide))
  | quote => exact cleanPart_of_lineSafe text (hplain (by decide))
  | callout => exact cleanPart_of_lineSafe text (hplain (by decide))
  | heading1 =>
    exact cleanPart_pre ['#', ' '] text (by decide)
      ⟨'#', [' '], rfl, by decide, by decide, by decide⟩ (hplain (by decide))
  | heading2 =>
    exact cleanPart_pre ['#', '#', ' '] text (by decide)
      ⟨'#', ['#', ' '], rfl, by decide, by decide, by decide⟩ (hplain (by decide))
  | heading3 =>
    exact cleanPart_pre ['#', '#', '#', ' '] text (by decide)
      ⟨'#', ['#', '#', ' '], rfl, by decide, by decide, by decide⟩ (hplain (by decide))
  | bulleted =>
    exact cleanPart_pre ['-', ' '] text (by decide)
      ⟨'-', [' '], rfl, by decide, by decide, by decide⟩ (hplain (by decide))
  | numbered =>
    exact cleanPart_pre ['1', '.', ' '] text (by decide)
      ⟨'1', ['.', ' '], rfl, by decide, by decide, by decide⟩ (hplain (by decide))
  | code =>
    obtain ⟨h1, h2⟩ := hcode rfl
    exact cleanPart_code text lang h1 h2
  | divider => exact (by decide : cleanPart ("---".data) = true)
  | childPage => exact absurd rfl hk
  | other => exact (by decide : cleanPart ([] : Str) = true)

/-! ### Cleanliness of the rendered parts of a clean block tree -/

theorem partsOfBlock_eq (k : BKind) (text lang : Str) (children : List Block)
    (h d : Nat) :
    partsOfBlock (.node k text lang children) h d =
      (if k = BKind.childPage then
        (if d = 0 then [markerStr] else []) ++
          [hashRun (min 6 (max 1 h)) ++ ' ' ::
            (if text.isEmpty then "Untitled".data else text), []] ++
          (if (jsTrim (joinNN (partsOfBlocks children (min 6 (h + 1)) (d + 1)))).isEmpty
           then []
           else [joinNN (partsOfBlocks children (min 6 (h + 1)) (d + 1))]) ++ [[]]
      else
        if children.isEmpty then
          if k = BKind.quote then
            (if (formatAsBlockQuote (extractBlockText k text lang)).isEmpty then []
             else [formatAsBlockQuote (extractBlockText k text lang)])
          else if (extractBlockText k text lang).isEmpty then []
          else [extractBlockText k text lang]
        else
          if k = BKind.quote then
            (if (formatAsBlockQuote (joinNN ((if (extractBlockText k text lang).isEmpty then []
                  else [extractBlockText k text lang]) ++
                (if (joinNN (partsOfBlocks children h (d + 1))).isEmpty then []
                 else [joinNN (partsOfBlocks children h (d + 1))])))).isEmpty then []
             else [formatAsBlockQuote (joinNN ((if (extractBlockText k text lang).isEmpty then []
                  else [extractBlockText k text lang]) ++
                (if (joinNN (partsOfBlocks children h (d + 1))).isEmpty then []
                 else [joinNN (partsOfBlocks children h (d + 1))])))])
          else if (jsTrim (joinNN ((if (extractBlockText k text lang).isEmpty then []
                else [extractBlockText k text lang]) ++
              (if (joinNN (partsOfBlocks children h (d + 1))).isEmpty then []
               else [joinNN (partsOfBlocks children h (d + 1))])))).isEmpty then []
          else [joinNN ((if (extractBlockText k text lang).isEmpty then []
                else [extractBlockText k text lang]) ++
              (if (joinNN (partsOfBlocks children h (d + 1))).isEmpty then []
               else [joinNN (partsOfBlocks children h (d + 1))]))]) := rfl

theorem cleanBlock_eq (k : BKind) (text lang : Str) (children : List Block) :
    cleanBlock (.node k text lang children) =
      ((if k = BKind.childPage then (!text.contains '\n' && !text.contains '\r')
        else if k = BKind.code then
          ((splitLines text).all (fun l => !(fenceStr.isPrefixOf (jsTrim l))) &&
            !lang.contains '\n')
        else (splitLines text).all lineSafe) && cleanBlocks children) := rfl

theorem partsOfBlocks_clean : ∀ (bs : List Block) (h d : Nat),
    cleanBlocks bs = true → (partsOfBlocks bs h (d + 1)).all cleanPart = true
  | [], h, d, hc => by
    rw [show partsOfBlocks [] h (d + 1) = [] from rfl]
    rfl
  | .node k text lang children :: rest, h, d, hc => by
    have hcsplit : cleanBlock (.node k text lang children) = true ∧
        cleanBlocks rest = true := by
      have he : cleanBlocks (.node k text lang children :: rest) =
          (cleanBlock (.node k text lang children) && cleanBlocks rest) := rfl
      rw [he, Bool.and_eq_true] at hc
      exact hc
    have hrest := partsOfBlocks_clean rest h d hcsplit.2
    have happ : partsOfBlocks (.node k text lang children :: rest) h (d + 1) =
        partsOfBlock (.node k text lang children) h (d + 1) ++
          partsOfBlocks rest h (d + 1) := rfl
    rw [happ, List.all_append, hrest, Bool.and_true]
    rw [cleanBlock_eq, Bool.and_eq_true] at hcsplit
    obtain ⟨⟨hcond, hcch⟩, _⟩ := hcsplit
    rw [partsOfBlock_eq]
    by_cases hk : k = BKind.childPage
    · rw [if_pos hk, if_neg (Nat.succ_ne_zero d)]
      rw [if_pos hk, Bool.and_eq_true] at hcond
      have hcn : text.contains '\n' = false := by simpa using hcond.1
      have hcr : text.contains '\r' = false := by simpa using hcond.2
      have hnlT : ∀ c ∈ (if text.isEmpty then "Untitled".data else text), ¬ c = '\n' := by
        by_cases he : text.isEmpty = true
        · rw [if_pos he]
          decide
        · rw [if_neg he]
          exact contains_false_no text '\n' hcn
      have hnrT : ∀ c ∈ (if text.isEmpty then "Untitled".data else text), ¬ c = '\r' := by
        by_cases he : text.isEmpty = true
        · rw [if_pos he]
          decide
        · rw [if_neg he]
          exact contains_false_no text '\r' hcr
      have hneT : (if text.isEmpty then "Untitled".data else text) ≠ [] := by
        by_cases he : text.isEmpty = true
        · rw [if_pos he]
          decide
        · rw [if_neg he]
          intro hnil
          rw [hnil] at he
          exact he rfl
      obtain ⟨hhp, _⟩ := headingPart_mk h _ hneT hnlT hnrT
      have hclHl := (headingPart_facts _ hhp).2.2.2.2
      have hcc := partsOfBlocks_clean children (min 6 (h + 1)) (d + 1) hcch
      have hccNN := cleanPart_joinNN _ hcc
      have hcl0 : cleanPart ([] : Str) = true := by decide
      by_cases hbl : (jsTrim (joinNN (partsOfBlocks children (min 6 (h + 1)) (d + 1 + 1)))).isEmpty = true
      · rw [if_pos hbl]
        simp only [List.nil_append, List.append_nil, List.all_append, List.all_cons,
          List.all_nil, hclHl, hcl0, Bool.and_true, Bool.true_and, Bool.and_self]
      · rw [if_neg hbl]
        simp only [List.nil_append, List.append_nil, List.all_append, List.all_cons,
          List.all_nil, hclHl, hccNN, hcl0, Bool.and_true, Bool.true_and, Bool.and_self]
    · rw [if_neg hk]
      rw [if_neg hk] at hcond
      have hcode : k = BKind.code →
          (splitLines text).all (fun l => !(fenceStr.isPrefixOf (jsTrim l))) = true ∧
            lang.contains '\n' = false := by
        intro hkc
        rw [if_pos hkc, Bool.and_eq_true] at hcond
        exact ⟨hcond.1, by simpa using hcond.2⟩
      have hplain : ¬ k = BKind.code → (splitLines text).all lineSafe = true := by
        intro hkc
        rwa [if_neg hkc] at hcond
      have hbase := extract_clean k text lang hk hcode hplain
      by_cases hemp : children.isEmpty = true
      · rw [if_pos hemp]
        by_cases hq : k = BKind.quote
        · rw [if_pos hq]
          by_cases hfe : (formatAsBlockQuote (extractBlockText k text lang)).isEmpty = true
          · rw [if_pos hfe]
            rfl
          · rw [if_neg hfe]
            simp [cleanPart_quote]
        · rw [if_neg hq]
          by_cases hbe : (extractBlockText k text lang).isEmpty = true
          · rw [if_pos hbe]
            rfl
          · rw [if_neg hbe]
            simp [hbase]
      · rw [if_neg hemp]
        have hct := partsOfBlocks_clean children h (d + 1) hcch
        have hctNN := cleanPart_joinNN _ hct
        set base := extractBlockText k text lang with hbE
        set ct := joinNN (partsOfBlocks children h (d + 1 + 1)) with hctE
        have hcombined : cleanPart (joinNN ((if base.isEmpty then [] else [base]) ++
            (if ct.isEmpty then [] else [ct]))) = true := by
          apply cleanPart_joinNN
          rw [List.all_append]
          by_cases h1 : base.isEmpty = true
          · rw [if_pos h1]
            by_cases h2 : ct.isEmpty = true
            · rw [if_pos h2]
              rfl
            · rw [if_neg h2]
              simp [hctNN]
          · rw [if_neg h1]
            by_cases h2 : ct.isEmpty = true
            · rw [if_pos h2]
              simp [hbase]
            · rw [if_neg h2]
              simp [hbase, hctNN]
        by_cases hq : k = BKind.quote
        · rw [if_pos hq]
          by_cases hfq : (formatAsBlockQuote (joinNN ((if base.isEmpty then [] else [base]) ++
              (if ct.isEmpty then [] else [ct])))).isEmpty = true
          · rw [if_pos hfq]
            rfl
          · rw [if_neg hfq]
            simp [cleanPart_quote]
        · rw [if_neg hq]
          by_cases hcb : (jsTrim (joinNN ((if base.isEmpty then [] else [base]) ++
              (if ct.isEmpty then [] else [ct])))).isEmpty = true
          · rw [if_pos hcb]
            rfl
          · rw [if_neg hcb]
            simpa using hcombined
termination_by bs _ _ _ => sizeOf bs
decreasing_by
  all_goals simp_wf
  all_goals omega

theorem partsOfBlocks_depth : ∀ (bs : List Block) (h d d2 : Nat),
    partsOfBlocks bs h (d + 1) = partsOfBlocks bs h (d2 + 1)
  | [], _, _, _ => rfl
  | .node k text lang children :: rest, h, d, d2 => by
    have hc1 := partsOfBlocks_depth children (min 6 (h + 1)) (d + 1) (d2 + 1)
    have hc2 := partsOfBlocks_depth children h (d + 1) (d2 + 1)
    have hr := partsOfBlocks_depth rest h d d2
    have happ1 : partsOfBlocks (.node k text lang children :: rest) h (d + 1) =
        partsOfBlock (.node k text lang children) h (d + 1) ++
          partsOfBlocks rest h (d + 1) := rfl
    have happ2 : partsOfBlocks (.node k text lang children :: rest) h (d2 + 1) =
        partsOfBlock (.node k text lang children) h (d2 + 1) ++
          partsOfBlocks rest h (d2 + 1) := rfl
    rw [happ1, happ2, hr, partsOfBlock_eq, partsOfBlock_eq,
      if_neg (Nat.succ_ne_zero d), if_neg (Nat.succ_ne_zero d2), hc1, hc2]
termination_by bs _ _ _ => sizeOf bs
decreasing_by
  all_goals simp_wf
  all_goals omega

theorem partsOfBlock_nonchild_clean (k : BKind) (text lang : Str)
    (children : List Block) (h : Nat) (hk : ¬ k = BKind.childPage)
    (hcb : cleanBlock (.node k text lang children) = true) :
    (partsOfBlock (.node k text lang children) h 0).all cleanPart = true := by
  have hcs : cleanBlocks [Block.node k text lang children] = true := by
    have he : cleanBlocks [Block.node k text lang children] =
        (cleanBlock (.node k text lang children) && true) := rfl
    rw [he, hcb]
    rfl
  have h2 := partsOfBlocks_clean [Block.node k text lang children] h 0 hcs
  have h1 : partsOfBlocks [Block.node k text lang children] h (0 + 1) =
      partsOfBlock (.node k text lang children) h 1 ++ [] := rfl
  rw [h1, List.append_nil] at h2
  have hd : partsOfBlock (.node k text lang children) h 0 =
      partsOfBlock (.node k text lang children) h 1 := by
    rw [partsOfBlock_eq, partsOfBlock_eq, if_neg hk, if_neg hk,
      partsOfBlocks_depth children h 0 1]
  rw [hd]
  exact h2

theorem goodParts_marker_cons (q : Str) (ps : List Str) :
    goodParts (markerStr :: q :: ps) = (headingPart q && goodParts (q :: ps)) := by
  rw [goodParts_cons, if_pos rfl]

theorem goodParts_render : ∀ (bs : List Block) (h : Nat),
    cleanBlocks bs = true → goodParts (partsOfBlocks bs h 0) = true
  | [], _, _ => rfl
  | .node k text lang children :: rest, h, hc => by
    have hcsplit : cleanBlock (.node k text lang children) = true ∧
        cleanBlocks rest = true := by
      have he : cleanBlocks (.node k text lang children :: rest) =
          (cleanBlock (.node k text lang children) && cleanBlocks rest) := rfl
      rw [he, Bool.and_eq_true] at hc
      exact hc
    have ih := goodParts_render rest h hcsplit.2
    have happ : partsOfBlocks (.node k text lang children :: rest) h 0 =
        partsOfBlock (.node k text lang children) h 0 ++
          partsOfBlocks rest h 0 := rfl
    rw [happ]
    by_cases hk : k = BKind.childPage
    · have hcch : cleanBlocks children = true := by
        have := hcsplit.1
        rw [cleanBlock_eq, Bool.and_eq_true] at this
        exact this.2
      have hcondT : ((!text.contains '\n') && (!text.contains '\r')) = true := by
        have := hcsplit.1
        rw [cleanBlock_eq, Bool.and_eq_true, if_pos hk] at this
        exact this.1
      rw [Bool.and_eq_true] at hcondT
      have hcn : text.contains '\n' = false := by simpa using hcondT.1
      have hcr : text.contains '\r' = false := by simpa using hcondT.2
      have hnlT : ∀ c ∈ (if text.isEmpty then "Untitled".data else text), ¬ c = '\n' := by
        by_cases he : text.isEmpty = true
        · rw [if_pos he]
          decide
        · rw [if_neg he]
          exact contains_false_no text '\n' hcn
      have hnrT : ∀ c ∈ (if text.isEmpty then "Untitled".data else text), ¬ c = '\r' := by
        by_cases he : text.isEmpty = true
        · rw [if_pos he]
          decide
        · rw [if_neg he]
          exact contains_false_no text '\r' hcr 
      have hneT : (if text.isEmpty then "Untitled".data else text) ≠ [] := by
        by_cases he : text.isEmpty = true
        · rw [if_pos he]
          decide
        · rw [if_neg he]
          intro hnil
          rw [hnil] at he
          exact he rfl
      obtain ⟨hhp, _⟩ := headingPart_mk h _ hneT hnlT hnrT
      have hclHl := (headingPart_facts _ hhp).2.2.2.2
      have hccAll := partsOfBlocks_clean children (min 6 (h + 1)) 0 hcch
      have hccNN := cleanPart_joinNN _ hccAll
      have hcl0 : cleanPart ([] : Str) = true := by decide
      rw [partsOfBlock_eq, if_pos hk, if_pos rfl]
      by_cases hbl : (jsTrim (joinNN (partsOfBlocks children (min 6 (h + 1)) (0 + 1)))).isEmpty = true
      · rw [if_pos hbl]
        show goodParts (markerStr :: (hashRun (min 6 (max 1 h)) ++ ' ' ::
          (if text.isEmpty then "Untitled".data else text)) :: [] :: [] ::
          partsOfBlocks rest h 0) = true
        rw [goodParts_marker_cons, hhp]
        have hgt : goodParts ((hashRun (min 6 (max 1 h)) ++ ' ' ::
            (if text.isEmpty then "Untitled".data else text)) :: [] :: [] ::
            partsOfBlocks rest h 0) = true := by
          apply goodParts_cons_clean _ _ hclHl
          exact goodParts_append_clean [[], []] _ (by rw [List.all_cons, List.all_cons, hcl0]; rfl) ih
        rw [hgt]
        rfl
      · rw [if_neg hbl]
        show goodParts (markerStr :: (hashRun (min 6 (max 1 h)) ++ ' ' ::
          (if text.isEmpty then "Untitled".data else text)) :: [] ::
          joinNN (partsOfBlocks children (min 6 (h + 1)) (0 + 1)) :: [] ::
          partsOfBlocks rest h 0) = true
        rw [goodParts_marker_cons, hhp]
        have hgt : goodParts ((hashRun (min 6 (max 1 h)) ++ ' ' ::
            (if text.isEmpty then "Untitled".data else text)) :: [] ::
            joinNN (partsOfBlocks children (min 6 (h + 1)) (0 + 1)) :: [] ::
            partsOfBlocks rest h 0) = true := by
          apply goodParts_cons_clean _ _ hclHl
          exact goodParts_append_clean
            [[], joinNN (partsOfBlocks children (min 6 (h + 1)) (0 + 1)), []] _
            (by rw [List.all_cons, List.all_cons, List.all_cons, hcl0, hccNN]; rfl) ih
        rw [hgt]
        rfl
    · have hchunk := partsOfBlock_nonchild_clean k text lang children h hk hcsplit.1
      exact goodParts_append_clean _ _ hchunk ih
termination_by bs _ _ => sizeOf bs
decreasing_by
  all_goals simp_wf

theorem head_dropWhile_false {α : Type} (q : α → Bool) :
    ∀ (l : List α) (m : α) (ms : List α), l.dropWhile q = m :: ms → q m = false := by
  intro l
  induction l with
  | nil =>
    intro m ms h
    simp [List.dropWhile] at h
  | cons a as ih =>
    intro m ms h
    rw [List.dropWhile_cons] at h
    by_cases ha : q a = true
    · rw [if_pos ha] at h
      exact ih m ms h
    · rw [if_neg ha] at h
      injection h with h1 _
      subst h1
      exact Bool.eq_false_iff.mpr ha

theorem mem_joinNN (P : List Str) (p : Str) (c : Char)
    (hp : p ∈ P) (hc : c ∈ p) : c ∈ joinNN P := by
  induction P with
  | nil => simp at hp
  | cons q qs ih =>
    cases qs with
    | nil =>
      simp at hp
      subst hp
      simpa [joinNN] using hc
    | cons r rs =>
      have hj : joinNN (q :: r :: rs) = q ++ '\n' :: '\n' :: joinNN (r :: rs) := rfl
      rw [hj]
      rcases List.mem_cons.mp hp with h1 | h1
      · subst h1
        exact List.mem_append.mpr (Or.inl hc)
      · exact List.mem_append.mpr (Or.inr (by simp [ih h1]))

theorem dropWhile_marker_append (A P : List Str)
    (hA : ∀ a ∈ A, ¬ a = markerStr) :
    (A ++ P).dropWhile (fun p => decide (p ≠ markerStr)) =
      P.dropWhile (fun p => decide (p ≠ markerStr)) := by
  induction A with
  | nil => rfl
  | cons a A ih =>
    rw [List.cons_append, List.dropWhile_cons,
      if_pos (by simp [hA a (by simp)]), ih (fun x hx => hA x (by simp [hx]))]

theorem splitAtMarkers_snd (P : List Str) :
    (splitAtMarkers P).2 =
      (match P.dropWhile (fun p => decide (p ≠ markerStr)) with
       | [] => []
       | _ :: ps2 => groupsOfGo ps2 []) := rfl

theorem expectedFromGroups_map_fst (gs : List (List Str)) :
    (expectedFromGroups gs).map Prod.fst = gs.map titleOfGroup := by
  induction gs with
  | nil => rfl
  | cons g gs ih =>
    rw [expectedFromGroups_cons]
    simp [ih]

theorem directChildTitles_cons_nonchild (k : BKind) (text lang : Str)
    (children : List Block) (rest : List Block) (hk : ¬ k = BKind.childPage) :
    directChildTitles (.node k text lang children :: rest) =
      directChildTitles rest := by
  cases k with
  | childPage => exact absurd rfl hk
  | paragraph => rfl
  | heading1 => rfl
  | heading2 => rfl
  | heading3 => rfl
  | quote => rfl
  | callout => rfl
  | bulleted => rfl
  | numbered => rfl
  | code => rfl
  | divider => rfl
  | other => rfl

theorem titles_child_chunk (hl : Str) (mid : List Str) (Prest : List Str)
    (hhl : ¬ hl = markerStr) (hmid : ∀ a ∈ mid, ¬ a = markerStr) :
    ((splitAtMarkers (markerStr :: hl :: (mid ++ Prest))).2).map titleOfGroup =
      (matchHeadingLine hl).getD [] ::
        ((splitAtMarkers Prest).2).map titleOfGroup := by
  have h1 : (splitAtMarkers (markerStr :: hl :: (mid ++ Prest))).2 =
      groupsOfGo (hl :: (mid ++ Prest)) [] := by
    rw [splitAtMarkers_snd, List.dropWhile_cons, if_neg (by simp)]
  rw [h1, groupsOfGo_split]
  simp only [List.reverse_nil, List.nil_append]
  have hdt : (hl :: (mid ++ Prest)).dropWhile (fun p => decide (p ≠ markerStr)) =
      Prest.dropWhile (fun p => decide (p ≠ markerStr)) := by
    have hmem : ∀ a ∈ hl :: mid, ¬ a = markerStr := by
      intro a ha
      rcases List.mem_cons.mp ha with h2 | h2
      · subst h2
        exact hhl
      · exact hmid a h2
    have := dropWhile_marker_append (hl :: mid) Prest hmem
    simpa using this
  rw [hdt]
  have htk : (hl :: (mid ++ Prest)).takeWhile (fun p => decide (p ≠ markerStr)) =
      hl :: (mid ++ Prest).takeWhile (fun p => decide (p ≠ markerStr)) := by
    rw [List.takeWhile_cons, if_pos (by simp [hhl])]
  rw [htk, List.map_cons, titleOfGroup_cons, ← splitAtMarkers_snd]

theorem titles_render : ∀ (bs : List Block) (h : Nat),
    cleanBlocks bs = true →
    ((splitAtMarkers (partsOfBlocks bs h 0)).2).map titleOfGroup =
      directChildTitles bs
  | [], _, _ => rfl
  | .node k text lang children :: rest, h, hc => by
    have hcsplit : cleanBlock (.node k text lang children) = true ∧
        cleanBlocks rest = true := by
      have he : cleanBlocks (.node k text lang children :: rest) =
          (cleanBlock (.node k text lang children) && cleanBlocks rest) := rfl
      rw [he, Bool.and_eq_true] at hc
      exact hc
    have ih := titles_render rest h hcsplit.2
    have happ : partsOfBlocks (.node k text lang children :: rest) h 0 =
        partsOfBlock (.node k text lang children) h 0 ++
          partsOfBlocks rest h 0 := rfl
    by_cases hk : k = BKind.childPage
    · subst hk
      have hcch : cleanBlocks children = true := by
        have := hcsplit.1
        rw [cleanBlock_eq, Bool.and_eq_true] at this
        exact this.2
      have hcondT : ((!text.contains '\n') && (!text.contains '\r')) = true := by
        have := hcsplit.1
        rw [cleanBlock_eq, Bool.and_eq_true, if_pos rfl] at this
        exact this.1
      rw [Bool.and_eq_true] at hcondT
      have hcn : text.contains '\n' = false := by simpa using hcondT.1
      have hcr : text.contains '\r' = false := by simpa using hcondT.2
      have hnlT : ∀ c ∈ (if text.isEmpty then "Untitled".data else text), ¬ c = '\n' := by
        by_cases he : text.isEmpty = true
        · rw [if_pos he]
          decide
        · rw [if_neg he]
          exact contains_false_no text '\n' hcn
      have hnrT : ∀ c ∈ (if text.isEmpty then "Untitled".data else text), ¬ c = '\r' := by
        by_cases he : text.isEmpty = true
        · rw [if_pos he]
          decide
        · rw [if_neg he]
          exact contains_false_no text '\r' hcr
      have hneT : (if text.isEmpty then "Untitled".data else text) ≠ [] := by
        by_cases he : text.isEmpty = true
        · rw [if_pos he]
          decide
        · rw [if_neg he]
          intro hnil
          rw [hnil] at he
          exact he rfl
      obtain ⟨hhp, hmt⟩ := headingPart_mk h _ hneT hnlT hnrT
      have hnm := (headingPart_facts _ hhp).2.2.2.1
      have hccAll := partsOfBlocks_clean children (min 6 (h + 1)) 0 hcch
      have hccNN := cleanPart_joinNN _ hccAll
      have hdir : directChildTitles (.node BKind.childPage text lang children :: rest) =
          jsTrim (if text.isEmpty then "Untitled".data else text) ::
            directChildTitles rest := rfl
      rw [happ, hdir, partsOfBlock_eq, if_pos rfl, if_pos rfl]
      by_cases hbl : (jsTrim (joinNN (partsOfBlocks children (min 6 (h + 1)) (0 + 1)))).isEmpty = true
      · rw [if_pos hbl]
        have hstep := titles_child_chunk
          (hashRun (min 6 (max 1 h)) ++ ' ' ::
            (if text.isEmpty then "Untitled".data else text))
          [[], []] (partsOfBlocks rest h 0) hnm
          (by
            intro a ha
            simp only [List.mem_cons, List.not_mem_nil, or_false] at ha
            rcases ha with h2 | h2 <;> (subst h2; decide))
        rw [show (([markerStr] ++
            [hashRun (min 6 (max 1 h)) ++ ' ' ::
              (if text.isEmpty then "Untitled".data else text), []] ++ [] ++ [[]]) ++
            partsOfBlocks rest h 0 : List Str) =
            markerStr :: (hashRun (min 6 (max 1 h)) ++ ' ' ::
              (if text.isEmpty then "Untitled".data else text)) ::
              (([[], []] : List Str) ++ partsOfBlocks rest h 0) from rfl]
        rw [hstep, hmt, ih]
        rfl
      · rw [if_neg hbl]
        have hstep := titles_child_chunk
          (hashRun (min 6 (max 1 h)) ++ ' ' ::
            (if text.isEmpty then "Untitled".data else text))
          [[], joinNN (partsOfBlocks children (min 6 (h + 1)) (0 + 1)), []]
          (partsOfBlocks rest h 0) hnm
          (by
            intro a ha
            simp only [List.mem_cons, List.not_mem_nil, or_false] at ha
            rcases ha with h2 | h2 | h2
            · subst h2
              decide
            · subst h2
              exact cleanPart_ne_marker _ hccNN
            · subst h2
              decide)
        rw [show (([markerStr] ++
            [hashRun (min 6 (max 1 h)) ++ ' ' ::
              (if text.isEmpty then "Untitled".data else text), []] ++
            [joinNN (partsOfBlocks children (min 6 (h + 1)) (0 + 1))] ++ [[]]) ++
            partsOfBlocks rest h 0 : List Str) =
            markerStr :: (hashRun (min 6 (max 1 h)) ++ ' ' ::
              (if text.isEmpty then "Untitled".data else text)) ::
              (([[], joinNN (partsOfBlocks children (min 6 (h + 1)) (0 + 1)), []] : List Str) ++
                partsOfBlocks rest h 0) from rfl]
        rw [hstep, hmt, ih]
        rfl
    · have hchunk := partsOfBlock_nonchild_clean k text lang children h hk hcsplit.1
      have hmemc : ∀ a ∈ partsOfBlock (.node k text lang children) h 0, ¬ a = markerStr := by
        intro a ha
        rw [List.all_eq_true] at hchunk
        exact cleanPart_ne_marker a (hchunk a ha)
      have hsam : (splitAtMarkers (partsOfBlock (.node k text lang children) h 0 ++
          partsOfBlocks rest h 0)).2 = (splitAtMarkers (partsOfBlocks rest h 0)).2 := by
        rw [splitAtMarkers_snd, splitAtMarkers_snd,
          dropWhile_marker_append _ _ hmemc]
      rw [happ, hsam, ih, directChildTitles_cons_nonchild k text lang children rest hk]
termination_by bs _ _ => sizeOf bs
decreasing_by
  all_goals simp_wf

/-- C1 as amended: for a block tree whose plain text spoofs no
`<!--subpage-->` marker or code fence (`cleanBlocks`), splitting the
`childDepth = 0` render yields exactly one section per direct child-page
block, in order — the section titles are exactly the trimmed effective
child titles — but each section's content is the marker-delimited group of
rendered parts joined with blank-line separators (`expectedFromGroups`,
with heading line, blank parts, and — for non-final sections — one extra
trailing newline), not the bytes of rendering that child alone. -/
theorem C1_sections_main (bs : List Block) (h : Nat)
    (hc : cleanBlocks bs = true) :
    (splitPage (renderPageBlocks bs h 0)).2 =
      expectedFromGroups ((splitAtMarkers (partsOfBlocks bs h 0)).2) ∧
    ((splitPage (renderPageBlocks bs h 0)).2).map Prod.fst = directChildTitles bs := by
  have hgood := goodParts_render bs h hc
  have htitles := titles_render bs h hc
  have hmain : (splitPage (renderPageBlocks bs h 0)).2 =
      expectedFromGroups ((splitAtMarkers (partsOfBlocks bs h 0)).2) := by
    by_cases hbl : (jsTrim (renderPageBlocks bs h 0)).isEmpty = true
    · have h1 : splitPage (renderPageBlocks bs h 0) = ([], []) := by
        rw [splitPage, if_pos hbl]
      have h2 : (splitAtMarkers (partsOfBlocks bs h 0)).2 = [] := by
        cases hd : (partsOfBlocks bs h 0).dropWhile (fun p => decide (p ≠ markerStr)) with
        | nil => rw [splitAtMarkers_snd, hd]
        | cons m ps =>
          exfalso
          have hm : m = markerStr := by
            have := head_dropWhile_false _ _ m ps hd
            simpa using this
          subst hm
          have hmem : markerStr ∈ partsOfBlocks bs h 0 :=
            mem_of_mem_dropWhile (hd ▸ List.mem_cons_self markerStr ps)
          have hlt : '<' ∈ joinNN (partsOfBlocks bs h 0) :=
            mem_joinNN _ markerStr '<' hmem (by decide)
          have hrend : renderPageBlocks bs h 0 = joinNN (partsOfBlocks bs h 0) := rfl
          rw [hrend] at hbl
          have hnil : jsTrim (joinNN (partsOfBlocks bs h 0)) = [] := by
            simpa using hbl
          have := (jsTrim_nil_iff _).mp hnil '<' hlt
          exact absurd this (by decide)
      rw [h1, h2]
      rfl
    · have hPne : partsOfBlocks bs h 0 ≠ [] := by
        intro h0
        rw [show renderPageBlocks bs h 0 = joinNN (partsOfBlocks bs h 0) from rfl, h0] at hbl
        exact hbl (by decide)
      rw [splitPage, if_neg hbl]
      show (splitSM (splitLines (renderPageBlocks bs h 0)) (.mainMode false)).2 = _
      rw [show renderPageBlocks bs h 0 = joinNN (partsOfBlocks bs h 0) from rfl,
        splitLines_joinNN _ hPne, splitSM_main_run _ hgood]
  refine ⟨hmain, ?_⟩
  rw [hmain, expectedFromGroups_map_fst, htitles]

/-- C1 counterexample: for the single direct child page `Child` holding one
paragraph `hello`, rendered at heading depth 3 and child depth 0, the
splitter recovers exactly one section titled `Child`, but its content is
`"### Child\n\n\n\nhello\n\n"` — the heading line, separator blank lines and
trailing separators are baked in — which is not byte-identical to the
string `"hello"` that rendering that child alone produces. -/
theorem C1_counterexample_section_not_child_render :
    (splitPage (renderPageBlocks
      [Block.node .childPage "Child".data [] [Block.node .paragraph "hello".data [] []]]
      3 0)).2 =
      [("Child".data, "### Child\n\n\n\nhello\n\n".data)] ∧
    renderPageBlocks [Block.node .paragraph "hello".data [] []] 4 0 = "hello".data ∧
    ("### Child\n\n\n\nhello\n\n".data : Str) ≠ "hello".data := by
  decide

/-- Witness for C1: the amended theorem applied to a concrete two-block
tree (a paragraph and a child page), with both hypothesis and conclusion
evaluated. -/
theorem C1_sections_main_witness :
    cleanBlocks
      [Block.node .paragraph "intro".data [] [],
       Block.node .childPage "Child".data []
         [Block.node .paragraph "hello".data [] []]] = true ∧
    ((splitPage (renderPageBlocks
        [Block.node .paragraph "intro".data [] [],
         Block.node .childPage "Child".data []
           [Block.node .paragraph "hello".data [] []]] 3 0)).2 =
      expectedFromGroups ((splitAtMarkers (partsOfBlocks
        [Block.node .paragraph "intro".data [] [],
         Block.node .childPage "Child".data []
           [Block.node .paragraph "hello".data [] []]] 3 0)).2) ∧
     ((splitPage (renderPageBlocks
        [Block.node .paragraph "intro".data [] [],
         Block.node .childPage "Child".data []
           [Block.node .paragraph "hello".data [] []]] 3 0)).2).map Prod.fst =
       directChildTitles
        [Block.node .paragraph "intro".data [] [],
         Block.node .childPage "Child".data []
           [Block.node .paragraph "hello".data [] []]]) :=
  ⟨by decide,
   C1_sections_main
     [Block.node .paragraph "intro".data [] [],
      Block.node .childPage "Child".data []
        [Block.node .paragraph "hello".data [] []]] 3 (by decide)⟩
